import Mathlib

/-!
Verification development for the text-patch maintenance scripts of this
repository.  Documents are modelled as `List Char`; Python's `str.replace`
(all non-overlapping occurrences, scanned left to right), `str.split`,
`'\n'.join`, `list.insert` (index clamped) and the two deterministic
`re.sub` calls are embedded as executable Lean functions below.
-/

/-- Python's substring test `p in s`: does `p` occur contiguously in `s`? -/
def containsSub (p : List Char) : List Char → Bool
  | [] => p.isEmpty
  | c :: cs => p.isPrefixOf (c :: cs) || containsSub p cs

/-- Number of positions of `s` (including the final empty suffix) at which `p`
occurs; occurrences at distinct positions are counted even when they overlap. -/
def countSub (p : List Char) : List Char → Nat
  | [] => if p.isEmpty then 1 else 0
  | c :: cs => (if p.isPrefixOf (c :: cs) then 1 else 0) + countSub p cs

/-- Core of Python's `str.replace(p, r)`: scan left to right; where `p` is a
prefix of the remaining input emit `r` and skip `p`, else copy one character.
The fuel is the input length, making the recursion structural. -/
def repGo (p r : List Char) : Nat → List Char → List Char
  | _, [] => []
  | 0, l => l
  | fuel+1, c :: cs =>
    if p.isPrefixOf (c :: cs) && !p.isEmpty then
      r ++ repGo p r fuel (cs.drop (p.length - 1))
    else
      c :: repGo p r fuel cs

/-- Python's `s.replace(p, r)` on character lists (for nonempty `p`). -/
def replaceAll (p r s : List Char) : List Char := repGo p r s.length s

/-- Number of replacements `replaceAll p r s` performs (same scan as `repGo`). -/
def mcGo (p : List Char) : Nat → List Char → Nat
  | _, [] => 0
  | 0, _ => 0
  | fuel+1, c :: cs =>
    if p.isPrefixOf (c :: cs) && !p.isEmpty then
      1 + mcGo p fuel (cs.drop (p.length - 1))
    else
      mcGo p fuel cs

/-- Number of (non-overlapping, left-to-right) matches replaced by `replaceAll`. -/
def matchCount (p s : List Char) : Nat := mcGo p s.length s

/-- Greedy left-to-right split of `s` on the pattern `p`: the chunks between
the non-overlapping occurrences that `replaceAll` rewrites. -/
def splitGo (p : List Char) : Nat → List Char → List (List Char)
  | _, [] => [[]]
  | 0, l => [l]
  | fuel+1, c :: cs =>
    if p.isPrefixOf (c :: cs) && !p.isEmpty then
      [] :: splitGo p fuel (cs.drop (p.length - 1))
    else
      match splitGo p fuel cs with
      | [] => [[c]]
      | h :: t => (c :: h) :: t

/-- The chunks of `s` between the occurrences of `p` replaced by `replaceAll`. -/
def splitOnL (p s : List Char) : List (List Char) := splitGo p s.length s

/-- `sep.join chunks` (Python's `str.join`). -/
def joinWith (sep : List Char) : List (List Char) → List Char
  | [] => []
  | [x] => x
  | x :: y :: t => x ++ sep ++ joinWith sep (y :: t)

/-- Python's `list.insert(i, x)` for a nonnegative index: insert before
position `i`, clamping to an append when `i` exceeds the length. -/
def pyInsert (i : Nat) (x : α) (l : List α) : List α :=
  l.take i ++ x :: l.drop i

/-- Python's `str.split(ch)` for a one-character separator. -/
def splitOnChar (ch : Char) : List Char → List (List Char)
  | [] => [[]]
  | c :: cs =>
    if c = ch then [] :: splitOnChar ch cs
    else
      match splitOnChar ch cs with
      | [] => [[c]]
      | h :: t => (c :: h) :: t

/-- Python's `re.sub(pat, repl, s, count=1)` for a deterministic matcher `m`
whose replacement reinserts the whole match (`\1`) followed by `ins`: at the
leftmost position where `m` reports a match of length `n`, keep the match and
insert `ins` right after it; the rest of the input is copied verbatim. -/
def subGo (m : List Char → Option Nat) (ins : List Char) : List Char → List Char
  | [] => []
  | c :: cs =>
    match m (c :: cs) with
    | some n => (c :: cs).take n ++ ins ++ (c :: cs).drop n
    | none => c :: subGo m ins cs

/-- Python's `re.sub(pat, repl, s)` (all matches) for a deterministic matcher
`m` and a constant replacement `repl`: every non-overlapping match of positive
length is replaced by `repl`, scanning left to right. -/
def resubGo (m : List Char → Option Nat) (repl : List Char) : Nat → List Char → List Char
  | _, [] => []
  | 0, l => l
  | fuel+1, c :: cs =>
    match m (c :: cs) with
    | some (n+1) => repl ++ resubGo m repl fuel (cs.drop n)
    | _ => c :: resubGo m repl fuel cs

/-- The closing-brace character, written by code point to keep it out of
string literals. -/
def rbrace : Char := Char.ofNat 125

/-- Python's regex class `\s`: space, tab, newline, carriage return, vertical
tab, form feed. -/
def isPySpace (c : Char) : Bool :=
  c = ' ' || c = '\t' || c = '\n' || c = '\r' || c = Char.ofNat 11 || c = Char.ofNat 12

/-- old_import literal of add-revenue-router.py -/
def old_import : List Char := String.data "import searchAdsRouter from \"./api/searchAds.js\";\nimport storageService"

/-- new_import literal of add-revenue-router.py -/
def new_import : List Char := String.data "import searchAdsRouter from \"./api/searchAds.js\";\nimport revenueRouter from \"./api/revenue.js\";\nimport storageService"

/-- old_route literal of add-revenue-router.py -/
def old_route : List Char := String.data "app.use(\"/api/searchAds\", searchAdsRouter);"

/-- new_route literal of add-revenue-router.py -/
def new_route : List Char := String.data "app.use(\"/api/searchAds\", searchAdsRouter);\napp.use(\"/api/revenue\", revenueRouter);"

/-- first locator of fix-categories.py -/
def catRomOld : List Char := String.data "category: \x27romance\x27"

/-- first payload of fix-categories.py -/
def catRomNew : List Char := String.data "category: \x27Contemporary\x27"

/-- second locator of fix-categories.py -/
def catDraOld : List Char := String.data "category: \x27drama\x27"

/-- second payload of fix-categories.py -/
def catDraNew : List Char := String.data "category: \x27Billionaire\x27"

/-- inserted line of add-suggestions-state.py -/
def suggLine : List Char := String.data "  const [suggestionsData, setSuggestionsData] = useState(null);\n"

/-- marker literal of add_helpers.py -/
def helperMarker : List Char := String.data "  const handleVideoPreview = (post) => \x7b"

/-- helper_code literal of add_helpers.py -/
def helper_code : List Char := String.data "\n  // Helper function to format scheduled time with countdown\n  const formatScheduledTime = (dateString) => \x7b\n    const date = new Date(dateString);\n    const now = new Date();\n    const diffMs = date - now;\n\n    if (diffMs < 0) \x7b\n      return \x7b\n        formatted: date.toLocaleString(\x27en-US\x27, \x7b\n          month: \x27short\x27,\n          day: \x27numeric\x27,\n          year: \x27numeric\x27,\n          hour: \x27numeric\x27,\n          minute: \x272-digit\x27,\n          hour12: true\n        \x7d),\n        countdown: \x27Past due\x27,\n        isPast: true\n      \x7d;\n    \x7d\n\n    const diffDays = Math.floor(diffMs / (1000 * 60 * 60 * 24));\n    const diffHours = Math.floor((diffMs % (1000 * 60 * 60 * 24)) / (1000 * 60 * 60));\n    const diffMinutes = Math.floor((diffMs % (1000 * 60 * 60)) / (1000 * 60));\n\n    let countdownText = \x27\x27;\n    if (diffDays > 0) \x7b\n      countdownText = diffDays + \x27d \x27 + diffHours + \x27h \x27 + diffMinutes + \x27m\x27;\n    \x7d else if (diffHours > 0) \x7b\n      countdownText = diffHours + \x27h \x27 + diffMinutes + \x27m\x27;\n    \x7d else if (diffMinutes > 0) \x7b\n      countdownText = diffMinutes + \x27 minutes\x27;\n    \x7d else \x7b\n      countdownText = \x27Less than 1 minute\x27;\n    \x7d\n\n    return \x7b\n      formatted: date.toLocaleString(\x27en-US\x27, \x7b\n        month: \x27short\x27,\n        day: \x27numeric\x27,\n        year: \x27numeric\x27,\n        hour: \x27numeric\x27,\n        minute: \x272-digit\x27,\n        hour12: true\n      \x7d),\n      countdown: countdownText,\n      isPast: false\n    \x7d;\n  \x7d;\n\n  const getTimezone = () => \x7b\n    const date = new Date();\n    const abbreviation = date.toLocaleTimeString(\x27en-US\x27, \x7b timeZoneName: \x27short\x27 \x7d).split(\x27 \x27)[2];\n    return abbreviation || \x27Local Time\x27;\n  \x7d;\n\n  const handleStartReschedule = () => \x7b\n    setRescheduleMode(true);\n    const defaultTime = selectedVideo.scheduledAt || new Date(Date.now() + 3600000).toISOString();\n    setNewScheduledTime(new Date(defaultTime).toISOString().slice(0, 16));\n  \x7d;\n\n  const handleCancelReschedule = () => \x7b\n    setRescheduleMode(false);\n    setNewScheduledTime(\x27\x27);\n  \x7d;\n\n  const handleConfirmReschedule = async () => \x7b\n    if (!newScheduledTime) return;\n\n    try \x7b\n      const response = await fetch(\x27http://localhost:3003/api/content/\x27 + selectedVideo._id + \x27/schedule\x27, \x7b\n        method: \x27PATCH\x27,\n        headers: \x7b \x27Content-Type\x27: \x27application/json\x27 \x7d,\n        body: JSON.stringify(\x7b scheduledAt: new Date(newScheduledTime).toISOString() \x7d)\n      \x7d);\n\n      if (response.ok) \x7b\n        setSelectedVideo(\x7b ...selectedVideo, scheduledAt: new Date(newScheduledTime).toISOString() \x7d);\n        fetchPosts();\n        setRescheduleMode(false);\n        setNewScheduledTime(\x27\x27);\n        alert(\x27Scheduled time updated!\x27);\n      \x7d else \x7b\n        const error = await response.json();\n        alert(\x27Failed to update: \x27 + (error.message || \x27Unknown error\x27));\n      \x7d\n    \x7d catch (error) \x7b\n      console.error(\x27Error:\x27, error);\n      setSelectedVideo(\x7b ...selectedVideo, scheduledAt: new Date(newScheduledTime).toISOString() \x7d);\n      setRescheduleMode(false);\n      setNewScheduledTime(\x27\x27);\n      alert(\x27Updated locally\x27);\n    \x7d\n  \x7d;\n\n  // Update countdown every minute\n  useEffect(() => \x7b\n    if (!selectedVideo || !selectedVideo.scheduledAt) return;\n\n    const updateCountdown = () => \x7b\n      const timeInfo = formatScheduledTime(selectedVideo.scheduledAt);\n      setCountdown(timeInfo.countdown);\n    \x7d;\n\n    updateCountdown();\n    const interval = setInterval(updateCountdown, 60000);\n\n    return () => clearInterval(interval);\n  \x7d, [selectedVideo]);\n\n"

/-- import-presence guard substring of edit-chat.py -/
def m1Marker : List Char := String.data "createTodosFromAIRecommendations"

/-- inserted import line of edit-chat.py -/
def importLine : List Char := String.data "import \x7b createTodosFromAIRecommendations \x7d from \"../utils/todoAutoCreator.js\";"

/-- auto-todo presence guard substring of edit-chat.py -/
def m2Marker : List Char := String.data "autoCreatedTodos"

/-- text inserted after the captured group by the re.sub of edit-chat.py (the raw replacement minus the backreference) -/
def savedBlock : List Char := String.data "\n    // Auto-create todos from AI recommendations\n    let autoCreatedTodos = [];\n    try \x7b\n      autoCreatedTodos = await createTodosFromAIRecommendations(\n        aiResponse,\n        savedConversation?.id || conversationId,\n        status\n      );\n    \x7d catch (todoError) \x7b\n      console.error(\"Error auto-creating todos:\", todoError);\n      // Don\x27t fail the chat response if todo creation fails\n    \x7d\n"

/-- old_response literal of edit-chat.py -/
def old_response : List Char := String.data "res.json(\x7b\n      success: true,\n      response: \x7b\n        role: aiResponse.role,\n        content: aiResponse.content,\n        timestamp: aiResponse.timestamp,\n        proposal: aiResponse.proposal || null\n      \x7d,\n      conversationId: savedConversation?.id,"

/-- new_response literal of edit-chat.py -/
def new_response : List Char := String.data "res.json(\x7b\n      success: true,\n      response: \x7b\n        role: aiResponse.role,\n        content: aiResponse.content,\n        timestamp: aiResponse.timestamp,\n        proposal: aiResponse.proposal || null\n      \x7d,\n      conversationId: savedConversation?.id,\n      autoCreatedTodos: autoCreatedTodos,\n      autoCreatedTodosCount: autoCreatedTodos.length,"

/-- the suffix new_response adds after old_response in edit-chat.py -/
def respExt : List Char := String.data "\n      autoCreatedTodos: autoCreatedTodos,\n      autoCreatedTodosCount: autoCreatedTodos.length,"

/-- literal head of the re.sub pattern of edit-chat.py -/
def savedLit : List Char := String.data "savedConversation = \x7b"

/-- literal head of the CompetitorBadge pattern of rename-components.py -/
def badgeOpen : List Char := String.data "<CompetitorBadge"

/-- literal part of the CompetitorBadge replacement of rename-components.py (the non-raw Python literal continues with the octal escape U+0001) -/
def badgeReplPre : List Char := String.data "<CompetitorKeywordBadge"

/-- Deterministic matcher for the edit-chat.py pattern
`savedConversation = \x7b[^\x7d]+\x7d\s*\x7d\s*`: the literal head, a maximal
nonempty run of non-brace characters, a closing brace, maximal whitespace,
another closing brace, then maximal whitespace.  Each starred class is
followed by a literal outside the class, so the greedy match needs no
backtracking and the returned length is the regex match length. -/
def matchSaved (s : List Char) : Option Nat :=
  if savedLit.isPrefixOf s then
    let rest := s.drop savedLit.length
    let k := (rest.takeWhile (fun c => c ≠ rbrace)).length
    if k = 0 then none
    else if (rest.drop k).head? = some rbrace then
      let rest2 := rest.drop (k+1)
      let w := (rest2.takeWhile (fun c => isPySpace c)).length
      if (rest2.drop w).head? = some rbrace then
        let rest3 := rest2.drop (w+1)
        let w2 := (rest3.takeWhile (fun c => isPySpace c)).length
        some (savedLit.length + k + 1 + w + 1 + w2)
      else none
    else none
  else none

/-- Deterministic matcher for the rename-components.py pattern
`<CompetitorBadge([^>]*>)`: the literal head, a maximal run of non-`>`
characters, then `>`; the run is maximal, so greediness needs no backtracking. -/
def matchBadge (s : List Char) : Option Nat :=
  if badgeOpen.isPrefixOf s then
    let rest := s.drop badgeOpen.length
    let k := (rest.takeWhile (fun c => c ≠ '>')).length
    if (rest.drop k).head? = some '>' then some (badgeOpen.length + k + 1) else none
  else none

/-- The replacement string `<CompetitorKeywordBadge\1` of rename-components.py
as Python evaluates it: a non-raw literal, so `\1` is the octal escape U+0001. -/
def badgeRepl : List Char := badgeReplPre ++ [Char.ofNat 1]

/-- The content transformation of rename-components.py restricted to the
CompetitorBadge substitution `re.sub(<CompetitorBadge([^>]*>), ...)`. -/
def renameBadge (s : List Char) : List Char := resubGo matchBadge badgeRepl s.length s

/-- The content transformation of add-revenue-router.py: the import
substitution followed by the route substitution. -/
def addRevenueRouter (c : List Char) : List Char :=
  replaceAll old_route new_route (replaceAll old_import new_import c)

/-- The route directive of add-revenue-router.py alone. -/
def addRoute (c : List Char) : List Char := replaceAll old_route new_route c

/-- The content transformation of fix-categories.py: both category
substitutions in source order. -/
def fixCategories (c : List Char) : List Char :=
  replaceAll catDraOld catDraNew (replaceAll catRomOld catRomNew c)

/-- add_helpers.py as a function of the file content: the pair of the final
file content and the printed report line.  When the marker is absent nothing
is written, so the content component is the input itself. -/
def addHelpers (c : List Char) : List Char × String :=
  if containsSub helperMarker c then
    (replaceAll helperMarker (helper_code ++ helperMarker) c, "✅ Helper functions added successfully")
  else
    (c, "❌ Marker not found")

/-- The line transformation of add-suggestions-state.py on the list produced
by `readlines()`: `lines.insert(574, suggLine)`. -/
def addSuggestionsLines (ls : List (List Char)) : List (List Char) :=
  pyInsert 574 suggLine ls

/-- First stage of edit-chat.py: unless the import marker is already present,
split on newlines, insert the import at index 2 and rejoin. -/
def editChatStage1 (c : List Char) : List Char :=
  if containsSub m1Marker c then c
  else joinWith (String.data "\n") (pyInsert 2 importLine (splitOnChar '\n' c))

/-- The `re.sub(pattern, replacement, content, count=1)` call of edit-chat.py. -/
def resubSaved (c : List Char) : List Char := subGo matchSaved savedBlock c

/-- Second stage of edit-chat.py: unless the auto-todo marker is present,
apply the single `re.sub` and then the response substitution. -/
def editChatStage2 (c : List Char) : List Char :=
  if containsSub m2Marker c then c
  else replaceAll old_response new_response (resubSaved c)

/-- The whole content transformation of edit-chat.py. -/
def editChat (c : List Char) : List Char := editChatStage2 (editChatStage1 c)

/-! ### Fuel irrelevance and unfolding equations -/

theorem repGo_nil (p r : List Char) (f : Nat) : repGo p r f [] = [] := by
  cases f <;> rfl

theorem repGo_fuel (p r : List Char) :
    ∀ f g s, s.length ≤ f → s.length ≤ g → repGo p r f s = repGo p r g s := by
  intro f
  induction f with
  | zero =>
    intro g s hf _
    have hs : s = [] := List.eq_nil_of_length_eq_zero (Nat.le_zero.mp hf)
    subst hs; simp [repGo_nil]
  | succ f ih =>
    intro g s hf hg
    cases s with
    | nil => simp [repGo_nil]
    | cons c cs =>
      cases g with
      | zero => simp at hg
      | succ g =>
        show repGo p r (f+1) (c :: cs) = repGo p r (g+1) (c :: cs)
        simp only [repGo]
        split
        · rw [ih g (cs.drop (p.length - 1))
            (by simp only [List.length_drop]; simp at hf; omega)
            (by simp only [List.length_drop]; simp at hg; omega)]
        · rw [ih g cs (by simp at hf; omega) (by simp at hg; omega)]

/-- `isPrefixOf` agrees with the prefix relation. -/
theorem isPreIff {l₁ l₂ : List Char} : l₁.isPrefixOf l₂ = true ↔ l₁ <+: l₂ :=
  List.isPrefixOf_iff_prefix

theorem replaceAll_nil (p r : List Char) : replaceAll p r [] = [] := rfl

theorem replaceAll_cons_pos (p r : List Char) (c : Char) (cs : List Char)
    (hp : p ≠ []) (h : p <+: (c :: cs)) :
    replaceAll p r (c :: cs) = r ++ replaceAll p r ((c :: cs).drop p.length) := by
  have hb : (p.isPrefixOf (c :: cs) && !p.isEmpty) = true := by
    simp [isPreIff.mpr h, List.isEmpty_iff, hp]
  have h1 : p.length - 1 + 1 = p.length := by
    cases p with
    | nil => exact absurd rfl hp
    | cons a as => simp
  show repGo p r (cs.length + 1) (c :: cs) = _
  simp only [repGo, hb, if_true]
  rw [repGo_fuel p r cs.length (cs.drop (p.length - 1)).length (cs.drop (p.length - 1))
    (by simp only [List.length_drop]; omega) (le_refl _)]
  have h2 : (c :: cs).drop p.length = cs.drop (p.length - 1) := by
    conv_lhs => rw [← h1]
    rfl
  rw [h2]
  rfl

theorem replaceAll_cons_neg (p r : List Char) (c : Char) (cs : List Char)
    (h : ¬ p <+: (c :: cs)) :
    replaceAll p r (c :: cs) = c :: replaceAll p r cs := by
  have hb : (p.isPrefixOf (c :: cs) && !p.isEmpty) = false := by
    have : p.isPrefixOf (c :: cs) = false := by
      rw [Bool.eq_false_iff]; intro hc; exact h (isPreIff.mp hc)
    simp [this]
  show repGo p r (cs.length + 1) (c :: cs) = _
  simp only [repGo, hb, if_false]
  rfl

theorem replaceAll_append_pat (p r b : List Char) (hp : p ≠ []) :
    replaceAll p r (p ++ b) = r ++ replaceAll p r b := by
  cases hpc : p with
  | nil => exact absurd hpc hp
  | cons a as =>
    rw [← hpc]
    have hcons : p ++ b = a :: (as ++ b) := by rw [hpc]; rfl
    rw [hcons, replaceAll_cons_pos p r a (as ++ b) hp (by rw [← hcons]; exact List.prefix_append p b),
      ← hcons, List.drop_left]

theorem mcGo_nil (p : List Char) (f : Nat) : mcGo p f [] = 0 := by
  cases f <;> rfl

theorem mcGo_fuel (p : List Char) :
    ∀ f g s, s.length ≤ f → s.length ≤ g → mcGo p f s = mcGo p g s := by
  intro f
  induction f with
  | zero =>
    intro g s hf _
    have hs : s = [] := List.eq_nil_of_length_eq_zero (Nat.le_zero.mp hf)
    subst hs; simp [mcGo_nil]
  | succ f ih =>
    intro g s hf hg
    cases s with
    | nil => simp [mcGo_nil]
    | cons c cs =>
      cases g with
      | zero => simp at hg
      | succ g =>
        show mcGo p (f+1) (c :: cs) = mcGo p (g+1) (c :: cs)
        simp only [mcGo]
        split
        · rw [ih g (cs.drop (p.length - 1))
            (by simp only [List.length_drop]; simp at hf; omega)
            (by simp only [List.length_drop]; simp at hg; omega)]
        · rw [ih g cs (by simp at hf; omega) (by simp at hg; omega)]

theorem matchCount_cons_pos (p : List Char) (c : Char) (cs : List Char)
    (hp : p ≠ []) (h : p <+: (c :: cs)) :
    matchCount p (c :: cs) = 1 + matchCount p ((c :: cs).drop p.length) := by
  have hb : (p.isPrefixOf (c :: cs) && !p.isEmpty) = true := by
    simp [isPreIff.mpr h, List.isEmpty_iff, hp]
  have h1 : p.length - 1 + 1 = p.length := by
    cases p with
    | nil => exact absurd rfl hp
    | cons a as => simp
  show mcGo p (cs.length + 1) (c :: cs) = _
  simp only [mcGo, hb, if_true]
  rw [mcGo_fuel p cs.length (cs.drop (p.length - 1)).length (cs.drop (p.length - 1))
    (by simp only [List.length_drop]; omega) (le_refl _)]
  have h2 : (c :: cs).drop p.length = cs.drop (p.length - 1) := by
    conv_lhs => rw [← h1]
    rfl
  rw [h2]
  rfl

theorem matchCount_cons_neg (p : List Char) (c : Char) (cs : List Char)
    (h : ¬ p <+: (c :: cs)) :
    matchCount p (c :: cs) = matchCount p cs := by
  have hb : (p.isPrefixOf (c :: cs) && !p.isEmpty) = false := by
    have : p.isPrefixOf (c :: cs) = false := by
      rw [Bool.eq_false_iff]; intro hc; exact h (isPreIff.mp hc)
    simp [this]
  show mcGo p (cs.length + 1) (c :: cs) = _
  simp only [mcGo, hb, if_false]
  rfl

/-! ### The substring test versus the infix relation -/

/-- A prefix is an infix. -/
theorem preInf {l₁ l₂ : List Char} (h : l₁ <+: l₂) : l₁ <:+: l₂ := by
  obtain ⟨t, ht⟩ := h
  exact ⟨[], t, by simpa using ht⟩

/-- A suffix is an infix. -/
theorem sufInf {l₁ l₂ : List Char} (h : l₁ <:+ l₂) : l₁ <:+: l₂ := by
  obtain ⟨t, ht⟩ := h
  exact ⟨t, [], by simpa using ht⟩

theorem containsSub_iff_inf (p s : List Char) : containsSub p s = true ↔ p <:+: s := by
  induction s with
  | nil =>
    show p.isEmpty = true ↔ _
    simp [List.isEmpty_iff, List.infix_nil]
  | cons c cs ih =>
    show (p.isPrefixOf (c :: cs) || containsSub p cs) = true ↔ _
    rw [Bool.or_eq_true, isPreIff, ih, List.infix_cons_iff]

theorem containsSub_false_iff (p s : List Char) :
    containsSub p s = false ↔ ¬ p <:+: s := by
  rw [← containsSub_iff_inf]
  simp

/-- If the pattern never occurs, `replaceAll` is the identity (no-op on
non-match). -/
theorem noOcc_noop (p r : List Char) :
    ∀ s, containsSub p s = false → replaceAll p r s = s := by
  intro s
  induction s with
  | nil => intro _; rfl
  | cons c cs ih =>
    intro h
    have h2 : (p.isPrefixOf (c :: cs) || containsSub p cs) = false := h
    rw [Bool.or_eq_false_iff] at h2
    have hnp : ¬ p <+: (c :: cs) := fun hc => by simp [isPreIff.mpr hc] at h2
    rw [replaceAll_cons_neg p r c cs hnp, ih h2.2]

/-- A prefix of an append is a prefix of the left part or extends it. -/
theorem prefix_append_cases {w a b : List Char} (h : w <+: a ++ b) :
    w <+: a ∨ a <+: w := by
  rcases le_or_lt w.length a.length with hle | hlt
  · left
    have hw : w = (a ++ b).take w.length := List.prefix_iff_eq_take.mp h
    rw [List.take_append_eq_append_take, Nat.sub_eq_zero_of_le hle, List.take_zero,
      List.append_nil] at hw
    exact List.prefix_iff_eq_take.mpr hw
  · right
    obtain ⟨t, ht⟩ := h
    have ha : a = (w ++ t).take a.length := by
      rw [ht]; exact (List.take_left a b).symm
    rw [List.take_append_eq_append_take, Nat.sub_eq_zero_of_le (le_of_lt hlt), List.take_zero,
      List.append_nil] at ha
    exact List.prefix_iff_eq_take.mpr ha

theorem takeIsPre (n : Nat) (l : List Char) : l.take n <+: l :=
  ⟨l.drop n, List.take_append_drop n l⟩

theorem dropIsSuf (n : Nat) (l : List Char) : l.drop n <:+ l :=
  ⟨l.take n, List.take_append_drop n l⟩

/-- Any infix of an append lies in the left part, lies in the right part, or
straddles the border, splitting into a nonempty suffix of the left part
followed by a nonempty prefix of the right part. -/
theorem infix_append_cases {w A B : List Char} (h : w <:+: A ++ B) :
    w <:+: A ∨ w <:+: B ∨
      ∃ u v, u ≠ [] ∧ v ≠ [] ∧ w = u ++ v ∧ u <:+ A ∧ v <+: B := by
  obtain ⟨s, t, hst⟩ := h
  have hdrop : (A ++ B).drop s.length = w ++ t := by
    rw [← hst, List.append_assoc, List.drop_left]
  have hlen : s.length + (w.length + t.length) = A.length + B.length := by
    have := congrArg List.length hst
    simpa [List.length_append, Nat.add_assoc] using this
  rcases le_or_lt (s.length + w.length) A.length with hin | hout
  · left
    have hsA : s.length ≤ A.length := by omega
    have hdropA : (A ++ B).drop s.length = A.drop s.length ++ B := by
      rw [List.drop_append_eq_append_drop, Nat.sub_eq_zero_of_le hsA, List.drop_zero]
    have hw : w = (A.drop s.length ++ B).take w.length := by
      rw [← hdropA, hdrop]; exact (List.take_left w t).symm
    rw [List.take_append_eq_append_take,
      Nat.sub_eq_zero_of_le (by simp only [List.length_drop]; omega),
      List.take_zero, List.append_nil] at hw
    exact List.infix_iff_prefix_suffix.mpr
      ⟨A.drop s.length, List.prefix_iff_eq_take.mpr (by simpa using hw), dropIsSuf _ _⟩
  rcases le_or_lt A.length s.length with hAs | hsA
  · right; left
    have hdropB : (A ++ B).drop s.length = B.drop (s.length - A.length) := by
      rw [List.drop_append_eq_append_drop, List.drop_eq_nil_of_le hAs, List.nil_append]
    have hw : w <+: B.drop (s.length - A.length) := by
      rw [← hdropB, hdrop]; exact List.prefix_append w t
    exact List.infix_iff_prefix_suffix.mpr ⟨B.drop (s.length - A.length), hw, dropIsSuf _ _⟩
  · right; right
    refine ⟨A.drop s.length, B.take (s.length + w.length - A.length), ?_, ?_, ?_, dropIsSuf _ _, takeIsPre _ _⟩
    · intro hnil
      have := congrArg List.length hnil
      simp only [List.length_drop, List.length_nil] at this
      omega
    · intro hnil
      have := congrArg List.length hnil
      simp only [List.length_take, List.length_nil] at this
      omega
    · have hdropA : (A ++ B).drop s.length = A.drop s.length ++ B := by
        rw [List.drop_append_eq_append_drop, Nat.sub_eq_zero_of_le (le_of_lt hsA), List.drop_zero]
      have hw : w = (A.drop s.length ++ B).take w.length := by
        rw [← hdropA, hdrop]; exact (List.take_left w t).symm
      rw [List.take_append_eq_append_take,
        List.take_of_length_le (by simp only [List.length_drop]; omega)] at hw
      have hidx : w.length - (A.drop s.length).length = s.length + w.length - A.length := by
        simp only [List.length_drop]; omega
      rw [hidx] at hw
      exact hw

/-- If no occurrence of `p` starts inside the prefix `a`, `replaceAll` copies
`a` through unchanged. -/
theorem copyThrough (p r : List Char) :
    ∀ a x, (∀ k, k < a.length → ¬ p <+: ((a ++ x).drop k)) →
      replaceAll p r (a ++ x) = a ++ replaceAll p r x := by
  intro a
  induction a with
  | nil => intro x _; rfl
  | cons c a' ih =>
    intro x h
    have h0 : ¬ p <+: (c :: (a' ++ x)) := by
      have := h 0 (by simp)
      simpa using this
    have harg : ∀ k, k < a'.length → ¬ p <+: ((a' ++ x).drop k) := by
      intro k hk
      have := h (k+1) (by simp only [List.length_cons]; omega)
      simpa using this
    rw [List.cons_append, replaceAll_cons_neg p r c (a' ++ x) h0, ih x harg]
    rfl

theorem contains_append_decomp (p x y : List Char) (h : containsSub p (x ++ y) = true) :
    (∃ k, k < x.length ∧ p <+: ((x ++ y).drop k)) ∨ containsSub p y = true := by
  induction x with
  | nil => right; simpa using h
  | cons c x' ih =>
    rw [List.cons_append] at h
    have h2 : (p.isPrefixOf (c :: (x' ++ y)) || containsSub p (x' ++ y)) = true := h
    rw [Bool.or_eq_true] at h2
    rcases h2 with h2 | h2
    · exact Or.inl ⟨0, by simp, by simpa using isPreIff.mp h2⟩
    · rcases ih h2 with ⟨k, hk, hp⟩ | h3
      · exact Or.inl ⟨k+1, by simp only [List.length_cons]; omega, by simpa using hp⟩
      · exact Or.inr h3

theorem noOcc_append (p x y : List Char)
    (hx : ∀ k, k < x.length → ¬ p <+: ((x ++ y).drop k))
    (hy : containsSub p y = false) :
    containsSub p (x ++ y) = false := by
  rw [Bool.eq_false_iff]
  intro hc
  rcases contains_append_decomp p x y hc with ⟨k, hk, hp⟩ | h3
  · exact hx k hk hp
  · rw [hy] at h3; exact Bool.false_ne_true h3

/-- The substring test is monotone along the infix order. -/
theorem contains_of_inf_contains {p q s : List Char} (hpq : p <:+: q)
    (h : containsSub q s = true) : containsSub p s = true :=
  (containsSub_iff_inf p s).mpr (hpq.trans ((containsSub_iff_inf q s).mp h))

theorem contains_drop_false {p s : List Char} (n : Nat)
    (h : containsSub p s = false) : containsSub p (s.drop n) = false := by
  rw [Bool.eq_false_iff] at h ⊢
  intro hc
  exact h (contains_of_inf_contains (List.infix_rfl) ((containsSub_iff_inf p _).mpr
    (((containsSub_iff_inf p _).mp hc).trans (sufInf (dropIsSuf n s)))))

/-! ### Claims C3, C8, C9, C4 -/

/-- Claim C3: when a script's locator does not occur in the document, the
output is byte-for-byte the input: add_helpers.py takes the no-write branch,
and add-revenue-router.py writes back exactly what it read when neither
`old_import` nor `old_route` occurs. -/
theorem c3_no_op_on_non_match (c : List Char) :
    (containsSub helperMarker c = false → addHelpers c = (c, "❌ Marker not found")) ∧
    (containsSub old_import c = false → containsSub old_route c = false →
      addRevenueRouter c = c) := by
  constructor
  · intro h
    simp [addHelpers, h]
  · intro h1 h2
    unfold addRevenueRouter
    rw [noOcc_noop old_import new_import c h1, noOcc_noop old_route new_route c h2]

theorem c3_witness :
    (containsSub helperMarker ("hello".data) = false ∧
      addHelpers ("hello".data) = ("hello".data, "❌ Marker not found")) ∧
    (containsSub old_import ("hello".data) = false ∧
      containsSub old_route ("hello".data) = false ∧
      addRevenueRouter ("hello".data) = "hello".data) :=
  ⟨⟨by decide, (c3_no_op_on_non_match ("hello".data)).1 (by decide)⟩,
   ⟨by decide, by decide,
    (c3_no_op_on_non_match ("hello".data)).2 (by decide) (by decide)⟩⟩

/-- Claim C8: when the marker of add_helpers.py is absent, the script takes
the marker-not-found branch: it reports the failure message, leaves the
document unmodified, and (being a total function of the content) terminates
normally. -/
theorem c8_marker_not_found (c : List Char)
    (h : containsSub helperMarker c = false) :
    addHelpers c = (c, "❌ Marker not found") := by
  simp [addHelpers, h]

theorem c8_witness :
    containsSub helperMarker ("no marker here".data) = false ∧
    addHelpers ("no marker here".data) = ("no marker here".data, "❌ Marker not found") :=
  ⟨by decide, c8_marker_not_found ("no marker here".data) (by decide)⟩

/-- Claim C9: on a document with fewer than 575 lines, `lines.insert(574, x)`
clamps the out-of-range index and the new line is appended as the last line,
with all original lines unchanged. -/
theorem c9_insert_clamps (ls : List (List Char)) (h : ls.length < 575) :
    addSuggestionsLines ls = ls ++ [suggLine] := by
  unfold addSuggestionsLines pyInsert
  rw [List.take_of_length_le (by omega), List.drop_eq_nil_of_le (by omega)]

theorem c9_witness :
    ([["a".data.head!]] : List (List Char)).length < 575 ∧
    addSuggestionsLines [["a".data.head!]] = [["a".data.head!]] ++ [suggLine] :=
  ⟨by decide, c9_insert_clamps _ (by decide)⟩

/-- Claim C4: on a document of at least 574 lines, the transformation of
add-suggestions-state.py yields one more line, the inserted line occupies
index 574, every earlier line is unchanged, and every line from index 574 on
shifts down by exactly one position. -/
theorem c4_insert_index (ls : List (List Char)) (h : 574 ≤ ls.length) :
    (addSuggestionsLines ls).length = ls.length + 1 ∧
    (addSuggestionsLines ls)[574]? = some suggLine ∧
    (∀ j, j < 574 → (addSuggestionsLines ls)[j]? = ls[j]?) ∧
    (∀ j, 574 ≤ j → (addSuggestionsLines ls)[j+1]? = ls[j]?) := by
  have hlen : (ls.take 574).length = 574 := by
    simp [List.length_take]; omega
  refine ⟨?_, ?_, ?_, ?_⟩
  · unfold addSuggestionsLines pyInsert
    simp only [List.length_append, List.length_cons, List.length_take, List.length_drop]
    omega
  · unfold addSuggestionsLines pyInsert
    rw [List.getElem?_append_right (by omega), hlen]
    simp
  · intro j hj
    unfold addSuggestionsLines pyInsert
    rw [List.getElem?_append_left (by omega)]
    exact List.getElem?_take_of_lt hj
  · intro j hj
    unfold addSuggestionsLines pyInsert
    rw [List.getElem?_append_right (by omega), hlen]
    have h1 : j + 1 - 574 = (j - 574) + 1 := by omega
    rw [h1, List.getElem?_cons_succ, List.getElem?_drop]
    have h2 : 574 + (j - 574) = j := by omega
    rw [h2]

set_option maxRecDepth 8192 in
theorem c4_witness :
    574 ≤ (List.replicate 574 ("x".data)).length ∧
    ((addSuggestionsLines (List.replicate 574 ("x".data))).length =
        (List.replicate 574 ("x".data)).length + 1 ∧
      (addSuggestionsLines (List.replicate 574 ("x".data)))[574]? = some suggLine ∧
      (∀ j, j < 574 → (addSuggestionsLines (List.replicate 574 ("x".data)))[j]? =
        (List.replicate 574 ("x".data))[j]?) ∧
      (∀ j, 574 ≤ j → (addSuggestionsLines (List.replicate 574 ("x".data)))[j+1]? =
        (List.replicate 574 ("x".data))[j]?)) :=
  ⟨by simp, c4_insert_index (List.replicate 574 ("x".data)) (by simp)⟩

/-! ### The chunk decomposition behind `replaceAll` (locality, claim C7) -/

theorem splitGo_nil (p : List Char) (f : Nat) : splitGo p f [] = [[]] := by
  cases f <;> rfl

theorem splitGo_ne_nil (p : List Char) : ∀ f s, splitGo p f s ≠ [] := by
  intro f
  induction f with
  | zero =>
    intro s
    cases s with
    | nil => simp [splitGo_nil]
    | cons c cs => show [c :: cs] ≠ []; simp
  | succ f ih =>
    intro s
    cases s with
    | nil => simp [splitGo_nil]
    | cons c cs =>
      show (if p.isPrefixOf (c :: cs) && !p.isEmpty then
          [] :: splitGo p f (cs.drop (p.length - 1))
        else
          match splitGo p f cs with
          | [] => [[c]]
          | h :: t => (c :: h) :: t) ≠ []
      split
      · simp
      · split <;> simp

theorem splitGo_fuel (p : List Char) :
    ∀ f g s, s.length ≤ f → s.length ≤ g → splitGo p f s = splitGo p g s := by
  intro f
  induction f with
  | zero =>
    intro g s hf _
    have hs : s = [] := List.eq_nil_of_length_eq_zero (Nat.le_zero.mp hf)
    subst hs; simp [splitGo_nil]
  | succ f ih =>
    intro g s hf hg
    cases s with
    | nil => simp [splitGo_nil]
    | cons c cs =>
      cases g with
      | zero => simp at hg
      | succ g =>
        show splitGo p (f+1) (c :: cs) = splitGo p (g+1) (c :: cs)
        simp only [splitGo]
        split
        · rw [ih g (cs.drop (p.length - 1))
            (by simp only [List.length_drop]; simp at hf; omega)
            (by simp only [List.length_drop]; simp at hg; omega)]
        · rw [ih g cs (by simp at hf; omega) (by simp at hg; omega)]

theorem splitOnL_ne_nil (p s : List Char) : splitOnL p s ≠ [] :=
  splitGo_ne_nil p s.length s

theorem splitOnL_cons_pos (p : List Char) (c : Char) (cs : List Char)
    (hp : p ≠ []) (h : p <+: (c :: cs)) :
    splitOnL p (c :: cs) = [] :: splitOnL p ((c :: cs).drop p.length) := by
  have hb : (p.isPrefixOf (c :: cs) && !p.isEmpty) = true := by
    simp [isPreIff.mpr h, List.isEmpty_iff, hp]
  have h1 : p.length - 1 + 1 = p.length := by
    cases p with
    | nil => exact absurd rfl hp
    | cons a as => simp
  show splitGo p (cs.length + 1) (c :: cs) = _
  simp only [splitGo, hb, if_true]
  rw [splitGo_fuel p cs.length (cs.drop (p.length - 1)).length (cs.drop (p.length - 1))
    (by simp only [List.length_drop]; omega) (le_refl _)]
  have h2 : (c :: cs).drop p.length = cs.drop (p.length - 1) := by
    conv_lhs => rw [← h1]
    rfl
  rw [h2]
  rfl

theorem splitOnL_cons_neg (p : List Char) (c : Char) (cs hd : List Char)
    (tl : List (List Char)) (h : ¬ p <+: (c :: cs)) (hs : splitOnL p cs = hd :: tl) :
    splitOnL p (c :: cs) = (c :: hd) :: tl := by
  have hb : (p.isPrefixOf (c :: cs) && !p.isEmpty) = false := by
    have : p.isPrefixOf (c :: cs) = false := by
      rw [Bool.eq_false_iff]; intro hc; exact h (isPreIff.mp hc)
    simp [this]
  show splitGo p (cs.length + 1) (c :: cs) = _
  simp only [splitGo, hb, if_false]
  have hgo : splitGo p cs.length cs = hd :: tl := hs
  rw [hgo]
  rfl

theorem joinWith_double (sep x : List Char) (y : List Char) (t : List (List Char)) :
    joinWith sep (x :: y :: t) = x ++ sep ++ joinWith sep (y :: t) := rfl

theorem joinWith_single (sep x : List Char) : joinWith sep [x] = x := rfl

/-- The first chunk is a prefix of the input. -/
theorem splitOnL_head_pre (p : List Char) (hp : p ≠ []) :
    ∀ n s hd tl, s.length ≤ n → splitOnL p s = hd :: tl → hd <+: s := by
  intro n
  induction n with
  | zero =>
    intro s hd tl hf hs
    have : s = [] := List.eq_nil_of_length_eq_zero (Nat.le_zero.mp hf)
    subst this
    have : ([[]] : List (List Char)) = hd :: tl := hs
    cases this
    exact List.nil_prefix
  | succ n ih =>
    intro s hd tl hf hs
    cases s with
    | nil =>
      have : ([[]] : List (List Char)) = hd :: tl := hs
      cases this
      exact List.nil_prefix
    | cons c cs =>
      by_cases hpre : p <+: (c :: cs)
      · rw [splitOnL_cons_pos p c cs hp hpre] at hs
        cases hs
        exact List.nil_prefix
      · obtain ⟨hd', tl', hs'⟩ := List.exists_cons_of_ne_nil (splitOnL_ne_nil p cs)
        rw [splitOnL_cons_neg p c cs hd' tl' hpre hs'] at hs
        injection hs with h1 h2
        subst h1
        exact List.cons_prefix_cons.mpr ⟨rfl, ih cs hd' tl' (by simp at hf; omega) hs'⟩

/-- Rejoining the chunks with the pattern itself recovers the input. -/
theorem joinWith_splitOnL (p : List Char) (hp : p ≠ []) :
    ∀ n s, s.length ≤ n → joinWith p (splitOnL p s) = s := by
  intro n
  induction n with
  | zero =>
    intro s hf
    have : s = [] := List.eq_nil_of_length_eq_zero (Nat.le_zero.mp hf)
    subst this; rfl
  | succ n ih =>
    intro s hf
    cases s with
    | nil => rfl
    | cons c cs =>
      by_cases hpre : p <+: (c :: cs)
      · rw [splitOnL_cons_pos p c cs hp hpre]
        obtain ⟨hd, tl, hs⟩ :=
          List.exists_cons_of_ne_nil (splitOnL_ne_nil p ((c :: cs).drop p.length))
        rw [hs]
        have hlen : ((c :: cs).drop p.length).length ≤ n := by
          simp only [List.length_drop]
          have : 1 ≤ p.length := by
            cases p with
            | nil => exact absurd rfl hp
            | cons a as => simp
          simp at hf ⊢
          omega
        have hrec : joinWith p (hd :: tl) = (c :: cs).drop p.length := by
          rw [← hs]; exact ih _ hlen
        show [] ++ p ++ joinWith p (hd :: tl) = c :: cs
        rw [hrec, List.nil_append]
        exact List.prefix_iff_eq_append.mp hpre
      · obtain ⟨hd, tl, hs⟩ := List.exists_cons_of_ne_nil (splitOnL_ne_nil p cs)
        rw [splitOnL_cons_neg p c cs hd tl hpre hs]
        have hrec : joinWith p (hd :: tl) = cs := by
          rw [← hs]; exact ih cs (by simp at hf; omega)
        cases tl with
        | nil =>
          rw [joinWith_single] at hrec ⊢
          rw [hrec]
        | cons y t =>
          rw [joinWith_double] at hrec ⊢
          rw [List.cons_append, List.cons_append, hrec]

/-- `replaceAll` rejoins the same chunks with the replacement. -/
theorem replaceAll_eq_joinWith (p r : List Char) (hp : p ≠ []) :
    ∀ n s, s.length ≤ n → replaceAll p r s = joinWith r (splitOnL p s) := by
  intro n
  induction n with
  | zero =>
    intro s hf
    have : s = [] := List.eq_nil_of_length_eq_zero (Nat.le_zero.mp hf)
    subst this; rfl
  | succ n ih =>
    intro s hf
    cases s with
    | nil => rfl
    | cons c cs =>
      by_cases hpre : p <+: (c :: cs)
      · rw [splitOnL_cons_pos p c cs hp hpre, replaceAll_cons_pos p r c cs hp hpre]
        obtain ⟨hd, tl, hs⟩ :=
          List.exists_cons_of_ne_nil (splitOnL_ne_nil p ((c :: cs).drop p.length))
        rw [hs]
        have hlen : ((c :: cs).drop p.length).length ≤ n := by
          simp only [List.length_drop]
          have : 1 ≤ p.length := by
            cases p with
            | nil => exact absurd rfl hp
            | cons a as => simp
          simp at hf ⊢
          omega
        have hrec : replaceAll p r ((c :: cs).drop p.length) = joinWith r (hd :: tl) := by
          rw [← hs]; exact ih _ hlen
        show r ++ replaceAll p r ((c :: cs).drop p.length) = [] ++ r ++ joinWith r (hd :: tl)
        rw [hrec, List.nil_append]
      · obtain ⟨hd, tl, hs⟩ := List.exists_cons_of_ne_nil (splitOnL_ne_nil p cs)
        rw [splitOnL_cons_neg p c cs hd tl hpre hs, replaceAll_cons_neg p r c cs hpre]
        have hrec : replaceAll p r cs = joinWith r (hd :: tl) := by
          rw [← hs]; exact ih cs (by simp at hf; omega)
        cases tl with
        | nil =>
          rw [joinWith_single] at hrec ⊢
          rw [hrec]
        | cons y t =>
          rw [joinWith_double] at hrec ⊢
          rw [List.cons_append, List.cons_append, hrec]

/-- No chunk contains an occurrence of the pattern. -/
theorem splitOnL_chunks_free (p : List Char) (hp : p ≠ []) :
    ∀ n s, s.length ≤ n → ∀ ch ∈ splitOnL p s, containsSub p ch = false := by
  intro n
  induction n with
  | zero =>
    intro s hf ch hch
    have : s = [] := List.eq_nil_of_length_eq_zero (Nat.le_zero.mp hf)
    subst this
    have : ch = [] := by simpa [splitOnL, splitGo] using hch
    subst this
    show p.isEmpty = false
    simp [List.isEmpty_iff, hp]
  | succ n ih =>
    intro s hf ch hch
    cases s with
    | nil =>
      have : ch = [] := by simpa [splitOnL, splitGo] using hch
      subst this
      show p.isEmpty = false
      simp [List.isEmpty_iff, hp]
    | cons c cs =>
      by_cases hpre : p <+: (c :: cs)
      · rw [splitOnL_cons_pos p c cs hp hpre] at hch
        rcases List.mem_cons.mp hch with hch | hch
        · subst hch
          show p.isEmpty = false
          simp [List.isEmpty_iff, hp]
        · have hlen : ((c :: cs).drop p.length).length ≤ n := by
            simp only [List.length_drop]
            have : 1 ≤ p.length := by
              cases p with
              | nil => exact absurd rfl hp
              | cons a as => simp
            simp at hf ⊢
            omega
          exact ih _ hlen ch hch
      · obtain ⟨hd, tl, hs⟩ := List.exists_cons_of_ne_nil (splitOnL_ne_nil p cs)
        rw [splitOnL_cons_neg p c cs hd tl hpre hs] at hch
        rcases List.mem_cons.mp hch with hch | hch
        · subst hch
          have hhd : containsSub p hd = false :=
            ih cs (by simp at hf; omega) hd (hs ▸ List.mem_cons_self hd tl)
          show (p.isPrefixOf (c :: hd) || containsSub p hd) = false
          rw [hhd, Bool.or_false, Bool.eq_false_iff]
          intro hc
          have h1 : hd <+: cs := splitOnL_head_pre p hp cs.length cs hd tl (le_refl _) hs
          have h2 : (c :: hd) <+: (c :: cs) := List.cons_prefix_cons.mpr ⟨rfl, h1⟩
          exact hpre ((isPreIff.mp hc).trans h2)
        · exact ih cs (by simp at hf; omega) ch (hs ▸ List.mem_cons_of_mem hd hch)

/-- Locality of a single substring replacement: the document decomposes into
pattern-free chunks separated by the replaced occurrences, and the output is
exactly the same chunks rejoined with the payload. -/
def LocalChunks (p r s : List Char) : Prop :=
  ∃ cs : List (List Char), cs ≠ [] ∧ s = joinWith p cs ∧
    replaceAll p r s = joinWith r cs ∧ ∀ ch ∈ cs, containsSub p ch = false

theorem localChunks_of_ne (p r s : List Char) (hp : p ≠ []) : LocalChunks p r s :=
  ⟨splitOnL p s, splitOnL_ne_nil p s,
    (joinWith_splitOnL p hp s.length s (le_refl _)).symm,
    replaceAll_eq_joinWith p r hp s.length s (le_refl _),
    splitOnL_chunks_free p hp s.length s (le_refl _)⟩

/-- Claim C7: each substring replacement of fix-categories.py and
add-revenue-router.py preserves every region of the document outside the
matched spans exactly: the document splits into locator-free chunks whose
text, order, line endings and whitespace reappear verbatim in the output,
with only the matched spans rewritten to the payload. -/
theorem c7_locality (s : List Char) :
    LocalChunks catRomOld catRomNew s ∧ LocalChunks catDraOld catDraNew s ∧
    LocalChunks old_import new_import s ∧ LocalChunks old_route new_route s :=
  ⟨localChunks_of_ne _ _ s (by decide), localChunks_of_ne _ _ s (by decide),
   localChunks_of_ne _ _ s (by decide), localChunks_of_ne _ _ s (by decide)⟩

/-! ### No occurrence left behind (claim C6) -/

/-- If a nonempty suffix `q'` of `q` is not a prefix of `s`, it is still not a
prefix after `replaceAll p r s`, provided `q` is at least as short as `r` and
no nonempty prefix of `r` of length at most `q.length` is a suffix of `q`. -/
theorem freshPre (p r q : List Char) (hp : p ≠ [])
    (hqr : q.length ≤ r.length)
    (hsp : ∀ j, j ≤ q.length → 0 < j → ¬ (r.take j <:+ q)) :
    ∀ n s, s.length ≤ n → ∀ q', q' <:+ q → q' ≠ [] →
      ¬ q' <+: s → ¬ q' <+: replaceAll p r s := by
  intro n
  induction n with
  | zero =>
    intro s hf q' _ hne _ hc
    have : s = [] := List.eq_nil_of_length_eq_zero (Nat.le_zero.mp hf)
    subst this
    rw [replaceAll_nil] at hc
    exact hne (List.prefix_nil.mp hc)
  | succ n ih =>
    intro s hf q' hq' hne hnp hc
    cases s with
    | nil =>
      rw [replaceAll_nil] at hc
      exact hne (List.prefix_nil.mp hc)
    | cons c cs =>
      by_cases hpre : p <+: (c :: cs)
      · rw [replaceAll_cons_pos p r c cs hp hpre] at hc
        rcases prefix_append_cases hc with hcr | hrc
        · have hlen : 0 < q'.length := List.length_pos.mpr hne
          have hle : q'.length ≤ q.length := hq'.length_le
          have htake : q' = r.take q'.length := List.prefix_iff_eq_take.mp hcr
          exact hsp q'.length hle hlen (htake ▸ hq')
        · have h1 : q'.length ≤ q.length := hq'.length_le
          have h2 : r.length ≤ q'.length := hrc.length_le
          have h3 : q' = r := (hrc.eq_of_length (by omega)).symm
          have h4 : q' = q := hq'.eq_of_length (by omega)
          have h5 : r.take q.length = r := List.take_of_length_le (by omega)
          exact hsp q.length (le_refl _) (by rw [← h4]; exact List.length_pos.mpr hne)
            (by rw [h5, ← h3, h4])
      · rw [replaceAll_cons_neg p r c cs hpre] at hc
        cases q' with
        | nil => exact hne rfl
        | cons d q'' =>
          obtain ⟨hd, htl⟩ := List.cons_prefix_cons.mp hc
          subst hd
          by_cases hq'' : q'' = []
          · subst hq''
            exact hnp (List.cons_prefix_cons.mpr ⟨rfl, List.nil_prefix⟩)
          · have hsuf : q'' <:+ q := List.IsSuffix.trans ⟨[d], rfl⟩ hq'
            have hnp'' : ¬ q'' <+: cs := fun hcc =>
              hnp (List.cons_prefix_cons.mpr ⟨rfl, hcc⟩)
            exact ih cs (by simp at hf; omega) q'' hsuf hq'' hnp'' htl

/-- After `replaceAll p r s` no occurrence of `p` remains, provided `p` is not
an infix of `r` and `r`'s boundaries cannot recombine into `p`. -/
theorem killOcc (p r : List Char) (hp : p ≠ [])
    (hlen : p.length ≤ r.length)
    (hinf : ¬ p <:+: r)
    (hps : ∀ k, k < r.length → ¬ (r.drop k <+: p))
    (hsp : ∀ j, j ≤ p.length → 0 < j → ¬ (r.take j <:+ p)) :
    ∀ n s, s.length ≤ n → containsSub p (replaceAll p r s) = false := by
  intro n
  induction n with
  | zero =>
    intro s hf
    have : s = [] := List.eq_nil_of_length_eq_zero (Nat.le_zero.mp hf)
    subst this
    show p.isEmpty = false
    simp [List.isEmpty_iff, hp]
  | succ n ih =>
    intro s hf
    cases s with
    | nil =>
      show p.isEmpty = false
      simp [List.isEmpty_iff, hp]
    | cons c cs =>
      by_cases hpre : p <+: (c :: cs)
      · rw [replaceAll_cons_pos p r c cs hp hpre]
        have hplen : 1 ≤ p.length := by
          cases p with
          | nil => exact absurd rfl hp
          | cons a as => simp
        refine noOcc_append p r (replaceAll p r ((c :: cs).drop p.length)) ?_ ?_
        · intro k hk hcp
          rw [List.drop_append_eq_append_drop, Nat.sub_eq_zero_of_le (le_of_lt hk),
            List.drop_zero] at hcp
          rcases prefix_append_cases hcp with h1 | h1
          · exact hinf (List.infix_iff_prefix_suffix.mpr ⟨r.drop k, h1, dropIsSuf _ _⟩)
          · exact hps k hk h1
        · exact ih ((c :: cs).drop p.length)
            (by simp only [List.length_drop, List.length_cons]; simp at hf; omega)
      · rw [replaceAll_cons_neg p r c cs hpre]
        have h1 : containsSub p (replaceAll p r cs) = false :=
          ih cs (by simp at hf; omega)
        show (p.isPrefixOf (c :: replaceAll p r cs) || containsSub p (replaceAll p r cs)) = false
        rw [h1, Bool.or_false, Bool.eq_false_iff]
        intro hc
        have h2 : ¬ p <+: replaceAll p r (c :: cs) :=
          freshPre p r p hp hlen hsp (cs.length + 1) (c :: cs) (by simp) p
            (List.suffix_refl p) hp hpre
        rw [replaceAll_cons_neg p r c cs hpre] at h2
        exact h2 (isPreIff.mp hc)

/-- Absence of an unrelated pattern `q` is preserved by `replaceAll p r`,
provided `q` is not an infix of `r` and `r`'s boundaries cannot recombine
into `q`. -/
theorem noOccPres (p r q : List Char) (hp : p ≠ []) (hq : q ≠ [])
    (hqr : q.length ≤ r.length)
    (hqinf : ¬ q <:+: r)
    (hps : ∀ k, k < r.length → ¬ (r.drop k <+: q))
    (hsp : ∀ j, j ≤ q.length → 0 < j → ¬ (r.take j <:+ q)) :
    ∀ n s, s.length ≤ n → containsSub q s = false →
      containsSub q (replaceAll p r s) = false := by
  intro n
  induction n with
  | zero =>
    intro s hf _
    have : s = [] := List.eq_nil_of_length_eq_zero (Nat.le_zero.mp hf)
    subst this
    show q.isEmpty = false
    simp [List.isEmpty_iff, hq]
  | succ n ih =>
    intro s hf hqs
    cases s with
    | nil =>
      show q.isEmpty = false
      simp [List.isEmpty_iff, hq]
    | cons c cs =>
      by_cases hpre : p <+: (c :: cs)
      · rw [replaceAll_cons_pos p r c cs hp hpre]
        have hplen : 1 ≤ p.length := by
          cases p with
          | nil => exact absurd rfl hp
          | cons a as => simp
        refine noOcc_append q r (replaceAll p r ((c :: cs).drop p.length)) ?_ ?_
        · intro k hk hcp
          rw [List.drop_append_eq_append_drop, Nat.sub_eq_zero_of_le (le_of_lt hk),
            List.drop_zero] at hcp
          rcases prefix_append_cases hcp with h1 | h1
          · exact hqinf (List.infix_iff_prefix_suffix.mpr ⟨r.drop k, h1, dropIsSuf _ _⟩)
          · exact hps k hk h1
        · exact ih ((c :: cs).drop p.length)
            (by simp only [List.length_drop, List.length_cons]; simp at hf; omega)
            (contains_drop_false p.length hqs)
      · rw [replaceAll_cons_neg p r c cs hpre]
        have hqcs : containsSub q cs = false := by
          have h2 : (q.isPrefixOf (c :: cs) || containsSub q cs) = false := hqs
          exact (Bool.or_eq_false_iff.mp h2).2
        have h1 : containsSub q (replaceAll p r cs) = false :=
          ih cs (by simp at hf; omega) hqcs
        show (q.isPrefixOf (c :: replaceAll p r cs) || containsSub q (replaceAll p r cs)) = false
        rw [h1, Bool.or_false, Bool.eq_false_iff]
        intro hc
        have hnqs : ¬ q <+: (c :: cs) := by
          intro hqq
          have : containsSub q (c :: cs) = true := by
            have h2 : q.isPrefixOf (c :: cs) = true := isPreIff.mpr hqq
            show (q.isPrefixOf (c :: cs) || containsSub q cs) = true
            rw [h2]; rfl
          rw [hqs] at this
          exact Bool.false_ne_true this
        have h2 : ¬ q <+: replaceAll p r (c :: cs) :=
          freshPre p r q hp hqr hsp (cs.length + 1) (c :: cs) (by simp) q
            (List.suffix_refl q) hq hnqs
        rw [replaceAll_cons_neg p r c cs hpre] at h2
        exact h2 (isPreIff.mp hc)

/-- Claim C6: fix-categories.py replaces every non-overlapping occurrence of
each category locator with its payload — in the output document no occurrence
of either locator remains. -/
theorem c6_no_locator_remains (s : List Char) :
    containsSub catRomOld (fixCategories s) = false ∧
    containsSub catDraOld (fixCategories s) = false := by
  constructor
  · unfold fixCategories
    exact noOccPres catDraOld catDraNew catRomOld (by decide) (by decide) (by decide)
      (by decide) (by decide) (by decide)
      (replaceAll catRomOld catRomNew s).length (replaceAll catRomOld catRomNew s)
      (le_refl _)
      (killOcc catRomOld catRomNew (by decide) (by decide) (by decide) (by decide)
        (by decide) s.length s (le_refl _))
  · unfold fixCategories
    exact killOcc catDraOld catDraNew (by decide) (by decide) (by decide) (by decide)
      (by decide) (replaceAll catRomOld catRomNew s).length
      (replaceAll catRomOld catRomNew s) (le_refl _)

/-! ### Commutation of the two category substitutions (claim C10) -/

/-- Two substring substitutions commute when neither pattern overlaps the
other, neither pattern occurs in either payload, and no payload boundary can
recombine into either pattern. -/
theorem replaceAll_comm (p1 r1 p2 r2 : List Char)
    (hp1 : p1 ≠ []) (hp2 : p2 ≠ [])
    (h12 : ¬ p1 <:+: p2) (h21 : ¬ p2 <:+: p1)
    (hl21 : p2.length ≤ r1.length) (hl12 : p1.length ≤ r2.length)
    (hi21 : ¬ p2 <:+: r1) (hi12 : ¬ p1 <:+: r2)
    (hsp21 : ∀ j, j ≤ p2.length → 0 < j → ¬ (r1.take j <:+ p2))
    (hsp12 : ∀ j, j ≤ p1.length → 0 < j → ¬ (r2.take j <:+ p1))
    (hps21 : ∀ k, k < r1.length → ¬ (r1.drop k <+: p2))
    (hps12 : ∀ k, k < r2.length → ¬ (r2.drop k <+: p1))
    (hx12 : ∀ k, k < p1.length → 0 < k → ¬ (p1.drop k <+: p2))
    (hx21 : ∀ k, k < p2.length → 0 < k → ¬ (p2.drop k <+: p1)) :
    ∀ n s, s.length ≤ n →
      replaceAll p2 r2 (replaceAll p1 r1 s) = replaceAll p1 r1 (replaceAll p2 r2 s) := by
  intro n
  induction n with
  | zero =>
    intro s hf
    have : s = [] := List.eq_nil_of_length_eq_zero (Nat.le_zero.mp hf)
    subst this; rfl
  | succ n ih =>
    intro s hf
    cases s with
    | nil => rfl
    | cons c cs =>
      by_cases hpre1 : p1 <+: (c :: cs)
      · have hnp2 : ¬ p2 <+: (c :: cs) := by
          intro hpre2
          rcases le_or_lt p1.length p2.length with hle | hlt
          · exact h12 (preInf (List.prefix_of_prefix_length_le hpre1 hpre2 hle))
          · exact h21 (preInf (List.prefix_of_prefix_length_le hpre2 hpre1 (le_of_lt hlt)))
        have hs : c :: cs = p1 ++ (c :: cs).drop p1.length :=
          (List.prefix_iff_eq_append.mp hpre1).symm
        have hplen1 : 1 ≤ p1.length := List.length_pos.mpr hp1
        have hlen1 : p1.length ≤ (c :: cs).length := hpre1.length_le
        set t := (c :: cs).drop p1.length with ht
        have htlen : t.length ≤ n := by
          rw [ht]
          simp only [List.length_drop, List.length_cons]
          simp at hf
          omega
        have cp2 : ∀ k, k < p1.length → ¬ p2 <+: ((p1 ++ t).drop k) := by
          intro k hk hcp
          rcases Nat.eq_zero_or_pos k with hk0 | hkpos
          · subst hk0
            rw [List.drop_zero, ← hs] at hcp
            exact hnp2 hcp
          · rw [List.drop_append_eq_append_drop, Nat.sub_eq_zero_of_le (le_of_lt hk),
              List.drop_zero] at hcp
            rcases prefix_append_cases hcp with h1 | h1
            · exact h21 (List.infix_iff_prefix_suffix.mpr ⟨p1.drop k, h1, dropIsSuf _ _⟩)
            · exact hx12 k hk hkpos h1
        have cpr1 : ∀ k, k < r1.length → ¬ p2 <+: ((r1 ++ replaceAll p1 r1 t).drop k) := by
          intro k hk hcp
          rw [List.drop_append_eq_append_drop, Nat.sub_eq_zero_of_le (le_of_lt hk),
            List.drop_zero] at hcp
          rcases prefix_append_cases hcp with h1 | h1
          · exact hi21 (List.infix_iff_prefix_suffix.mpr ⟨r1.drop k, h1, dropIsSuf _ _⟩)
          · exact hps21 k hk h1
        calc replaceAll p2 r2 (replaceAll p1 r1 (c :: cs))
            = replaceAll p2 r2 (r1 ++ replaceAll p1 r1 t) := by
              rw [hs, replaceAll_append_pat p1 r1 t hp1]
          _ = r1 ++ replaceAll p2 r2 (replaceAll p1 r1 t) := by
              rw [copyThrough p2 r2 r1 (replaceAll p1 r1 t) cpr1]
          _ = r1 ++ replaceAll p1 r1 (replaceAll p2 r2 t) := by
              rw [ih t htlen]
          _ = replaceAll p1 r1 (p1 ++ replaceAll p2 r2 t) := by
              rw [replaceAll_append_pat p1 r1 (replaceAll p2 r2 t) hp1]
          _ = replaceAll p1 r1 (replaceAll p2 r2 (c :: cs)) := by
              rw [hs, copyThrough p2 r2 p1 t cp2]
      by_cases hpre2 : p2 <+: (c :: cs)
      · have hs : c :: cs = p2 ++ (c :: cs).drop p2.length :=
          (List.prefix_iff_eq_append.mp hpre2).symm
        have hplen2 : 1 ≤ p2.length := List.length_pos.mpr hp2
        have hlen2 : p2.length ≤ (c :: cs).length := hpre2.length_le
        set t := (c :: cs).drop p2.length with ht
        have htlen : t.length ≤ n := by
          rw [ht]
          simp only [List.length_drop, List.length_cons]
          simp at hf
          omega
        have cp1 : ∀ k, k < p2.length → ¬ p1 <+: ((p2 ++ t).drop k) := by
          intro k hk hcp
          rcases Nat.eq_zero_or_pos k with hk0 | hkpos
          · subst hk0
            rw [List.drop_zero, ← hs] at hcp
            exact hpre1 hcp
          · rw [List.drop_append_eq_append_drop, Nat.sub_eq_zero_of_le (le_of_lt hk),
              List.drop_zero] at hcp
            rcases prefix_append_cases hcp with h1 | h1
            · exact h12 (List.infix_iff_prefix_suffix.mpr ⟨p2.drop k, h1, dropIsSuf _ _⟩)
            · exact hx21 k hk hkpos h1
        have cpr2 : ∀ k, k < r2.length → ¬ p1 <+: ((r2 ++ replaceAll p2 r2 t).drop k) := by
          intro k hk hcp
          rw [List.drop_append_eq_append_drop, Nat.sub_eq_zero_of_le (le_of_lt hk),
            List.drop_zero] at hcp
          rcases prefix_append_cases hcp with h1 | h1
          · exact hi12 (List.infix_iff_prefix_suffix.mpr ⟨r2.drop k, h1, dropIsSuf _ _⟩)
          · exact hps12 k hk h1
        calc replaceAll p2 r2 (replaceAll p1 r1 (c :: cs))
            = replaceAll p2 r2 (p2 ++ replaceAll p1 r1 t) := by
              rw [hs, copyThrough p1 r1 p2 t cp1]
          _ = r2 ++ replaceAll p2 r2 (replaceAll p1 r1 t) := by
              rw [replaceAll_append_pat p2 r2 (replaceAll p1 r1 t) hp2]
          _ = r2 ++ replaceAll p1 r1 (replaceAll p2 r2 t) := by
              rw [ih t htlen]
          _ = replaceAll p1 r1 (r2 ++ replaceAll p2 r2 t) := by
              rw [copyThrough p1 r1 r2 (replaceAll p2 r2 t) cpr2]
          _ = replaceAll p1 r1 (replaceAll p2 r2 (c :: cs)) := by
              rw [hs, replaceAll_append_pat p2 r2 t hp2]
      · have hf1 : ¬ p2 <+: replaceAll p1 r1 (c :: cs) :=
          freshPre p1 r1 p2 hp1 hl21 hsp21 (cs.length + 1) (c :: cs) (by simp) p2
            (List.suffix_refl p2) hp2 hpre2
        have hf2 : ¬ p1 <+: replaceAll p2 r2 (c :: cs) :=
          freshPre p2 r2 p1 hp2 hl12 hsp12 (cs.length + 1) (c :: cs) (by simp) p1
            (List.suffix_refl p1) hp1 hpre1
        rw [replaceAll_cons_neg p1 r1 c cs hpre1] at hf1 ⊢
        rw [replaceAll_cons_neg p2 r2 c cs hpre2] at hf2 ⊢
        rw [replaceAll_cons_neg p2 r2 c (replaceAll p1 r1 cs) hf1,
          replaceAll_cons_neg p1 r1 c (replaceAll p2 r2 cs) hf2,
          ih cs (by simp at hf; omega)]

/-- Claim C10: the two substring replacements of fix-categories.py commute:
applying the romance and the drama substitutions in either order yields the
same document; in particular `fixCategories` equals the opposite-order
composition. -/
theorem c10_categories_commute (s : List Char) :
    fixCategories s =
      replaceAll catRomOld catRomNew (replaceAll catDraOld catDraNew s) := by
  unfold fixCategories
  exact replaceAll_comm catRomOld catRomNew catDraOld catDraNew
    (by decide) (by decide) (by decide) (by decide) (by decide) (by decide)
    (by decide) (by decide) (by decide) (by decide) (by decide) (by decide)
    (by decide) (by decide) s.length s (le_refl _)

/-- Claim C5 is false of the code (code bug): the replacement literals of the
capture-group substitutions in rename-components.py are non-raw Python
strings, so `\1` is the octal escape U+0001 rather than a back-reference.  On
a document containing `<CompetitorBadge className="x">` the CompetitorBadge
substitution emits `<CompetitorKeywordBadge` followed by the control
character U+0001 — the captured attribute text (and the closing `>`) is
discarded, not preserved. -/
theorem c5_backreference_lost :
    renameBadge (String.data "<CompetitorBadge className=\"x\">") =
      badgeReplPre ++ [Char.ofNat 1] ∧
    renameBadge (String.data "<CompetitorBadge className=\"x\">") ≠
      String.data "<CompetitorKeywordBadge className=\"x\">" := by
  exact ⟨by decide, by decide⟩

/-! ### Counting occurrences (claim C1) -/

theorem countSub_cons_pos (p : List Char) (c : Char) (cs : List Char)
    (h : p <+: (c :: cs)) : countSub p (c :: cs) = 1 + countSub p cs := by
  show (if p.isPrefixOf (c :: cs) then 1 else 0) + countSub p cs = 1 + countSub p cs
  rw [isPreIff.mpr h]
  rfl

theorem countSub_cons_neg (p : List Char) (c : Char) (cs : List Char)
    (h : ¬ p <+: (c :: cs)) : countSub p (c :: cs) = countSub p cs := by
  show (if p.isPrefixOf (c :: cs) then 1 else 0) + countSub p cs = countSub p cs
  have hb : p.isPrefixOf (c :: cs) = false := by
    rw [Bool.eq_false_iff]; intro hc; exact h (isPreIff.mp hc)
  rw [hb]
  simp

theorem countSub_zero_iff (p : List Char) (hp : p ≠ []) :
    ∀ s, countSub p s = 0 ↔ containsSub p s = false := by
  intro s
  induction s with
  | nil =>
    constructor
    · intro _
      show p.isEmpty = false
      simp [List.isEmpty_iff, hp]
    · intro _
      show (if p.isEmpty then 1 else 0) = 0
      simp [List.isEmpty_iff, hp]
  | cons c cs ih =>
    by_cases h : p <+: (c :: cs)
    · rw [countSub_cons_pos p c cs h]
      constructor
      · intro hc; omega
      · intro hc
        have : containsSub p (c :: cs) = true := by
          show (p.isPrefixOf (c :: cs) || containsSub p cs) = true
          rw [isPreIff.mpr h]; rfl
        rw [hc] at this
        exact absurd this Bool.false_ne_true
    · rw [countSub_cons_neg p c cs h]
      have hcc : containsSub p (c :: cs) = containsSub p cs := by
        show (p.isPrefixOf (c :: cs) || containsSub p cs) = containsSub p cs
        have hb : p.isPrefixOf (c :: cs) = false := by
          rw [Bool.eq_false_iff]; intro hc; exact h (isPreIff.mp hc)
        rw [hb, Bool.false_or]
      rw [hcc]
      exact ih

/-- If no occurrence of `p` starts inside the prefix `a`, the occurrence
count ignores `a`. -/
theorem countSub_skip (p : List Char) :
    ∀ a x, (∀ k, k < a.length → ¬ p <+: ((a ++ x).drop k)) →
      countSub p (a ++ x) = countSub p x := by
  intro a
  induction a with
  | nil => intro x _; rfl
  | cons c a' ih =>
    intro x h
    have h0 : ¬ p <+: (c :: (a' ++ x)) := by
      have := h 0 (by simp)
      simpa using this
    rw [List.cons_append, countSub_cons_neg p c (a' ++ x) h0]
    refine ih x ?_
    intro k hk
    have := h (k+1) (by simp only [List.length_cons]; omega)
    simpa using this

/-- A pattern whose proper nonempty suffixes are never prefixes of itself
(a borderless pattern) occurs exactly once in `p ++ b` beyond the
occurrences inside `b`. -/
theorem countSub_self_append (p : List Char) (hp : p ≠ [])
    (hb : ∀ k, k < p.length → 0 < k → ¬ (p.drop k <+: p)) (b : List Char) :
    countSub p (p ++ b) = 1 + countSub p b := by
  have aux : ∀ d j, d = p.drop j → 0 < j → countSub p (d ++ b) = countSub p b := by
    intro d
    induction d with
    | nil => intro j _ _; rfl
    | cons x d' ih =>
      intro j hdj hj
      have hjlt : j < p.length := by
        by_contra hge
        have : p.drop j = [] := List.drop_eq_nil_of_le (by omega)
        rw [this] at hdj
        exact absurd hdj (List.cons_ne_nil x d')
      have hnp : ¬ p <+: ((x :: d') ++ b) := by
        intro hc
        rcases prefix_append_cases hc with h1 | h1
        · have := h1.length_le
          have hd : (x :: d').length = p.length - j := by
            rw [hdj]; simp
          omega
        · exact hb j hjlt hj (hdj ▸ h1)
      rw [List.cons_append, countSub_cons_neg p x (d' ++ b) (by simpa using hnp)]
      have hd' : d' = p.drop (j + 1) := by
        have : (p.drop j).tail = p.drop (j + 1) := List.tail_drop p j
        rw [← hdj] at this
        simpa using this
      exact ih (j + 1) hd' (by omega)
  cases hpc : p with
  | nil => exact absurd hpc hp
  | cons c p' =>
    rw [← hpc]
    have hcons : p ++ b = c :: (p' ++ b) := by rw [hpc]; rfl
    have hpre : p <+: p ++ b := List.prefix_append p b
    rw [hcons, countSub_cons_pos p c (p' ++ b) (by rw [← hcons]; exact hpre)]
    have hp' : p' = p.drop 1 := by rw [hpc]; rfl
    rw [aux p' 1 hp' (by omega)]

/-- A document in which `p` occurs at exactly one position splits as
`a ++ p ++ b` with no occurrence starting in `a` and exactly one in `p ++ b`. -/
theorem countSub_one_decomp (p : List Char) (hp : p ≠ []) :
    ∀ s, countSub p s = 1 →
      ∃ a b, s = a ++ p ++ b ∧ (∀ k, k < a.length → ¬ p <+: (s.drop k)) ∧
        countSub p (p ++ b) = 1 := by
  intro s
  induction s with
  | nil =>
    intro h
    exfalso
    have hfalse : p.isEmpty = false := by simp [List.isEmpty_iff, hp]
    have h2 : (if p.isEmpty then 1 else 0) = 1 := h
    simp only [hfalse] at h2
    simp at h2
  | cons c cs ih =>
    intro h
    by_cases hpre : p <+: (c :: cs)
    · refine ⟨[], (c :: cs).drop p.length, ?_, by simp, ?_⟩
      · simpa using (List.prefix_iff_eq_append.mp hpre).symm
      · have hs : p ++ (c :: cs).drop p.length = c :: cs :=
          List.prefix_iff_eq_append.mp hpre
        rw [hs]
        exact h
    · rw [countSub_cons_neg p c cs hpre] at h
      obtain ⟨a', b', hcs, hna, hpb⟩ := ih h
      refine ⟨c :: a', b', by simp [hcs], ?_, hpb⟩
      intro k hk
      cases k with
      | zero => simpa using hpre
      | succ k =>
        have := hna k (by simpa using hk)
        simpa [hcs] using this

/-- A prefix no longer than the left part of an append ignores the right part. -/
theorem prefix_append_long {w y : List Char} (z : List Char)
    (hw : w.length ≤ y.length) : w <+: y ++ z ↔ w <+: y := by
  constructor
  · intro h
    have htake : w = (y ++ z).take w.length := List.prefix_iff_eq_take.mp h
    rw [List.take_append_eq_append_take, Nat.sub_eq_zero_of_le hw, List.take_zero,
      List.append_nil] at htake
    exact List.prefix_iff_eq_take.mpr htake
  · intro h
    exact h.trans (List.prefix_append y z)

theorem matchCount_pos_of_contains (p : List Char) (hp : p ≠ []) :
    ∀ n s, s.length ≤ n → containsSub p s = true → 1 ≤ matchCount p s := by
  intro n
  induction n with
  | zero =>
    intro s hf hc
    have : s = [] := List.eq_nil_of_length_eq_zero (Nat.le_zero.mp hf)
    subst this
    have : p.isEmpty = true := hc
    simp [List.isEmpty_iff, hp] at this
  | succ n ih =>
    intro s hf hc
    cases s with
    | nil =>
      have : p.isEmpty = true := hc
      simp [List.isEmpty_iff, hp] at this
    | cons c cs =>
      by_cases hpre : p <+: (c :: cs)
      · rw [matchCount_cons_pos p c cs hp hpre]
        omega
      · rw [matchCount_cons_neg p c cs hpre]
        have h2 : (p.isPrefixOf (c :: cs) || containsSub p cs) = true := hc
        rw [Bool.or_eq_true] at h2
        rcases h2 with h3 | h3
        · exact absurd (isPreIff.mp h3) hpre
        · exact ih cs (by simp at hf; omega) h3

/-- Replacing each occurrence of `p` by `p ++ e` grows the document by
`e.length` per replaced match. -/
theorem length_replaceAll_ext (p e : List Char) (hp : p ≠ []) :
    ∀ n s, s.length ≤ n →
      (replaceAll p (p ++ e) s).length = s.length + matchCount p s * e.length := by
  intro n
  induction n with
  | zero =>
    intro s hf
    have : s = [] := List.eq_nil_of_length_eq_zero (Nat.le_zero.mp hf)
    subst this
    simp [replaceAll_nil, matchCount, mcGo_nil]
  | succ n ih =>
    intro s hf
    cases s with
    | nil => simp [replaceAll_nil, matchCount, mcGo_nil]
    | cons c cs =>
      by_cases hpre : p <+: (c :: cs)
      · rw [replaceAll_cons_pos p (p ++ e) c cs hp hpre, matchCount_cons_pos p c cs hp hpre]
        have hplen : p.length ≤ cs.length + 1 := by
          have := hpre.length_le
          simpa using this
        have hp1 : 1 ≤ p.length := List.length_pos.mpr hp
        have hrec := ih ((c :: cs).drop p.length)
          (by simp only [List.length_drop, List.length_cons]; simp at hf; omega)
        rw [List.length_append, hrec, List.length_append, List.length_drop,
          Nat.add_mul, Nat.one_mul]
        simp only [List.length_cons]
        omega
      · rw [replaceAll_cons_neg p (p ++ e) c cs hpre, matchCount_cons_neg p c cs hpre]
        have hrec := ih cs (by simp at hf; omega)
        simp only [List.length_cons, hrec]
        omega

/-- Replacing each occurrence of `p` by `p ++ e` keeps `p` present. -/
theorem contains_replaceAll_ext (p e : List Char) (hp : p ≠ []) :
    ∀ n s, s.length ≤ n → containsSub p s = true →
      containsSub p (replaceAll p (p ++ e) s) = true := by
  intro n
  induction n with
  | zero =>
    intro s hf hc
    have : s = [] := List.eq_nil_of_length_eq_zero (Nat.le_zero.mp hf)
    subst this
    have : p.isEmpty = true := hc
    simp [List.isEmpty_iff, hp] at this
  | succ n ih =>
    intro s hf hc
    cases s with
    | nil =>
      have : p.isEmpty = true := hc
      simp [List.isEmpty_iff, hp] at this
    | cons c cs =>
      by_cases hpre : p <+: (c :: cs)
      · rw [replaceAll_cons_pos p (p ++ e) c cs hp hpre]
        refine (containsSub_iff_inf _ _).mpr (preInf ?_)
        rw [List.append_assoc]
        exact List.prefix_append p (e ++ replaceAll p (p ++ e) ((c :: cs).drop p.length))
      · rw [replaceAll_cons_neg p (p ++ e) c cs hpre]
        have h2 : (p.isPrefixOf (c :: cs) || containsSub p cs) = true := hc
        rw [Bool.or_eq_true] at h2
        rcases h2 with h3 | h3
        · exact absurd (isPreIff.mp h3) hpre
        · have h4 := ih cs (by simp at hf; omega) h3
          show (p.isPrefixOf (c :: replaceAll p (p ++ e) cs) ||
            containsSub p (replaceAll p (p ++ e) cs)) = true
          rw [h4, Bool.or_true]

/-- The suffix that `new_route` appends after `old_route`. -/
def routeExt : List Char := String.data "\napp.use(\"/api/revenue\", revenueRouter);"

set_option maxRecDepth 100000 in
theorem new_route_decomp : new_route = old_route ++ routeExt := by decide

set_option maxRecDepth 100000 in
/-- Claim C1 as stated is false of the code: on the document consisting of
the searchAds line, a newline and the searchAds line again (which contains
the line), one application of the route directive produces the two-line pair
twice rather than exactly once, and a second application does not yield the
same document — `content.replace` has no idempotency guard. -/
theorem c1_counterexample :
    containsSub old_route (old_route ++ '\n' :: old_route) = true ∧
    countSub new_route (addRoute (old_route ++ '\n' :: old_route)) ≠ 1 ∧
    addRoute (addRoute (old_route ++ '\n' :: old_route)) ≠
      addRoute (old_route ++ '\n' :: old_route) :=
  ⟨by decide, by decide, by decide⟩

set_option maxRecDepth 100000 in
/-- Claim C1 (amended): for every document in which the searchAds route line
occurs at exactly one position, applying the route directive of
add-revenue-router.py produces a document in which that line immediately
followed by the revenue line occurs at exactly one position; and the
directive is never idempotent on matching documents: whenever the line
occurs, a second application appends the revenue line again and so changes
the document. -/
theorem c1_route_directive (s : List Char) :
    (countSub old_route s = 1 → countSub new_route (addRoute s) = 1) ∧
    (containsSub old_route s = true → addRoute (addRoute s) ≠ addRoute s) := by
  have hpne : old_route ≠ [] := by decide
  have hqne : new_route ≠ [] := by decide
  have haddr : ∀ x : List Char,
      addRoute x = replaceAll old_route (old_route ++ routeExt) x := by
    intro x
    unfold addRoute
    rw [new_route_decomp]
  constructor
  · intro h1
    obtain ⟨a, b, hs, hna, hpb⟩ := countSub_one_decomp old_route hpne s h1
    have hborder : ∀ k, k < old_route.length → 0 < k →
        ¬ (old_route.drop k <+: old_route) := by decide
    have hqborder : ∀ k, k < new_route.length → 0 < k →
        ¬ (new_route.drop k <+: new_route) := by decide
    have hcb : countSub old_route b = 0 := by
      have h2 := countSub_self_append old_route hpne hborder b
      omega
    have hcontb : containsSub old_route b = false :=
      (countSub_zero_iff old_route hpne b).mp hcb
    have hcond : ∀ k, k < a.length →
        ¬ old_route <+: ((a ++ (old_route ++ b)).drop k) := by
      intro k hk
      have h3 := hna k hk
      rw [hs, List.append_assoc] at h3
      exact h3
    have hout : addRoute s = a ++ (new_route ++ b) := by
      unfold addRoute
      rw [hs, List.append_assoc,
        copyThrough old_route new_route a (old_route ++ b) hcond,
        replaceAll_append_pat old_route new_route b hpne,
        noOcc_noop old_route new_route b hcontb]
    have hpq : old_route <+: new_route := by
      rw [new_route_decomp]
      exact List.prefix_append old_route routeExt
    have hcontqb : containsSub new_route b = false := by
      rw [Bool.eq_false_iff]
      intro hcq
      have h4 : containsSub old_route b = true :=
        contains_of_inf_contains (preInf hpq) hcq
      rw [hcontb] at h4
      exact Bool.false_ne_true h4
    have hqcond : ∀ k, k < a.length →
        ¬ new_route <+: ((a ++ (new_route ++ b)).drop k) := by
      intro k hk hq
      have hkle : k ≤ a.length := le_of_lt hk
      rw [List.drop_append_eq_append_drop, Nat.sub_eq_zero_of_le hkle,
        List.drop_zero] at hq
      have hp2 : old_route <+: a.drop k ++ (new_route ++ b) := hpq.trans hq
      have heq1 : a.drop k ++ (new_route ++ b) =
          (a.drop k ++ old_route) ++ (routeExt ++ b) := by
        rw [new_route_decomp]
        simp [List.append_assoc]
      rw [heq1] at hp2
      have hlong : old_route.length ≤ (a.drop k ++ old_route).length := by
        simp [List.length_append]
      have hp3 : old_route <+: (a.drop k ++ old_route) :=
        (prefix_append_long (routeExt ++ b) hlong).mp hp2
      have hp4 : old_route <+: (a.drop k ++ old_route) ++ b :=
        (prefix_append_long b hlong).mpr hp3
      have h5 := hna k hk
      rw [hs, List.append_assoc, List.drop_append_eq_append_drop,
        Nat.sub_eq_zero_of_le hkle, List.drop_zero, ← List.append_assoc] at h5
      exact h5 hp4
    rw [hout, countSub_skip new_route a (new_route ++ b) hqcond,
      countSub_self_append new_route hqne hqborder b,
      (countSub_zero_iff new_route hqne b).mpr hcontqb]
  · intro hc heq
    have h1 : containsSub old_route (addRoute s) = true := by
      rw [haddr s]
      exact contains_replaceAll_ext old_route routeExt hpne s.length s (le_refl _) hc
    have h2 : 1 ≤ matchCount old_route (addRoute s) :=
      matchCount_pos_of_contains old_route hpne (addRoute s).length (addRoute s)
        (le_refl _) h1
    have h3 : (addRoute (addRoute s)).length =
        (addRoute s).length + matchCount old_route (addRoute s) * routeExt.length := by
      rw [haddr (addRoute s)]
      exact length_replaceAll_ext old_route routeExt hpne (addRoute s).length
        (addRoute s) (le_refl _)
    have h4 : 1 ≤ routeExt.length := by decide
    have h5 : routeExt.length ≤ matchCount old_route (addRoute s) * routeExt.length :=
      Nat.le_mul_of_pos_left routeExt.length (by omega)
    have h6 := congrArg List.length heq
    omega

set_option maxRecDepth 100000 in
theorem c1_witness :
    countSub old_route old_route = 1 ∧
    containsSub old_route old_route = true ∧
    countSub new_route (addRoute old_route) = 1 ∧
    addRoute (addRoute old_route) ≠ addRoute old_route :=
  ⟨by decide, by decide,
   (c1_route_directive old_route).1 (by decide),
   (c1_route_directive old_route).2 (by decide)⟩

/-! ### Preservation lemmas for guarded edits (claim C2) -/

/-- A nonempty suffix ends with the same last element. -/
theorem getLast?_of_suf {u A : List Char} (h : u <:+ A) (hu : u ≠ []) :
    A.getLast? = u.getLast? := by
  obtain ⟨w, hw⟩ := h
  rw [← hw, List.getLast?_append]
  cases hu' : u.getLast? with
  | none => exact absurd (List.getLast?_eq_none_iff.mp hu') hu
  | some x => rfl

/-- When the pattern occurs, the replacement text appears in the output. -/
theorem contains_r_of_contains (p r : List Char) (hp : p ≠ []) :
    ∀ n s, s.length ≤ n → containsSub p s = true → r <:+: replaceAll p r s := by
  intro n
  induction n with
  | zero =>
    intro s hf hc
    have : s = [] := List.eq_nil_of_length_eq_zero (Nat.le_zero.mp hf)
    subst this
    have : p.isEmpty = true := hc
    simp [List.isEmpty_iff, hp] at this
  | succ n ih =>
    intro s hf hc
    cases s with
    | nil =>
      have : p.isEmpty = true := hc
      simp [List.isEmpty_iff, hp] at this
    | cons c cs =>
      by_cases hpre : p <+: (c :: cs)
      · rw [replaceAll_cons_pos p r c cs hp hpre]
        exact preInf (List.prefix_append r _)
      · rw [replaceAll_cons_neg p r c cs hpre]
        have h2 : (p.isPrefixOf (c :: cs) || containsSub p cs) = true := hc
        rw [Bool.or_eq_true] at h2
        rcases h2 with h3 | h3
        · exact absurd (isPreIff.mp h3) hpre
        · exact (List.infix_cons_iff.mpr (Or.inr (ih cs (by simp at hf; omega) h3)))

/-- A prefix avoiding the last character of `p` survives replacing every `p`
by `p ++ e`. -/
theorem prefPresExt (p e : List Char) (hp : p ≠ []) (ch : Char)
    (hlast : p.getLast? = some ch) :
    ∀ n t q, t.length ≤ n → q <+: t → ch ∉ q → q <+: replaceAll p (p ++ e) t := by
  intro n
  induction n with
  | zero =>
    intro t q hf hq _
    have : t = [] := List.eq_nil_of_length_eq_zero (Nat.le_zero.mp hf)
    subst this
    rw [replaceAll_nil]
    exact hq
  | succ n ih =>
    intro t q hf hq hch
    cases t with
    | nil =>
      rw [replaceAll_nil]
      exact hq
    | cons c cs =>
      by_cases hpre : p <+: (c :: cs)
      · rw [replaceAll_cons_pos p (p ++ e) c cs hp hpre]
        have hs : c :: cs = p ++ (c :: cs).drop p.length :=
          (List.prefix_iff_eq_append.mp hpre).symm
        rw [hs] at hq
        rcases prefix_append_cases hq with h1 | h1
        · refine h1.trans ?_
          rw [List.append_assoc]
          exact List.prefix_append p _
        · exfalso
          have hchp : ch ∈ p := List.mem_of_getLast?_eq_some hlast
          exact hch (h1.subset hchp)
      · rw [replaceAll_cons_neg p (p ++ e) c cs hpre]
        cases q with
        | nil => exact List.nil_prefix
        | cons d q' =>
          obtain ⟨hd, htl⟩ := List.cons_prefix_cons.mp hq
          subst hd
          refine List.cons_prefix_cons.mpr ⟨rfl, ?_⟩
          exact ih cs q' (by simp at hf; omega) htl
            (fun hm => hch (List.mem_cons_of_mem d hm))

/-- An infix avoiding the last character of `p` survives replacing every `p`
by `p ++ e`. -/
theorem infPresExt (p e : List Char) (hp : p ≠ []) (ch : Char)
    (hlast : p.getLast? = some ch) :
    ∀ n t q, t.length ≤ n → q <:+: t → ch ∉ q → q <:+: replaceAll p (p ++ e) t := by
  intro n
  induction n with
  | zero =>
    intro t q hf hq _
    have : t = [] := List.eq_nil_of_length_eq_zero (Nat.le_zero.mp hf)
    subst this
    rw [replaceAll_nil]
    exact hq
  | succ n ih =>
    intro t q hf hq hch
    cases t with
    | nil =>
      rw [replaceAll_nil]
      exact hq
    | cons c cs =>
      by_cases hpre : p <+: (c :: cs)
      · rw [replaceAll_cons_pos p (p ++ e) c cs hp hpre]
        have hs : c :: cs = p ++ (c :: cs).drop p.length :=
          (List.prefix_iff_eq_append.mp hpre).symm
        rw [hs] at hq
        rcases infix_append_cases hq with h1 | h1 | ⟨u, v, hu, hv, huv, husuf, hvpre⟩
        · refine h1.trans (preInf ?_)
          rw [List.append_assoc]
          exact List.prefix_append p _
        · have h2 := ih ((c :: cs).drop p.length) q
            (by
              have hp1 : 1 ≤ p.length := List.length_pos.mpr hp
              simp only [List.length_drop, List.length_cons]
              simp only [List.length_cons] at hf
              omega) h1 hch
          exact h2.trans (sufInf (List.suffix_append _ _))
        · exfalso
          have hul : u.getLast? = some ch := by
            rw [← getLast?_of_suf husuf hu]
            exact hlast
          have hcu : ch ∈ u := List.mem_of_getLast?_eq_some hul
          have hupre : u <+: q := huv ▸ List.prefix_append u v
          exact hch (hupre.subset hcu)
      · rw [replaceAll_cons_neg p (p ++ e) c cs hpre]
        rcases List.infix_cons_iff.mp hq with h1 | h1
        · have h2 := prefPresExt p e hp ch hlast (cs.length + 1) (c :: cs) q (by simp) h1 hch
          rw [replaceAll_cons_neg p (p ++ e) c cs hpre] at h2
          exact preInf h2
        · exact List.infix_cons_iff.mpr
            (Or.inr (ih cs q (by simp at hf; omega) h1 hch))

/-- Every member of a joined list is an infix of the join. -/
theorem mem_joinWith_inf (sep : List Char) :
    ∀ cs (x : List Char), x ∈ cs → x <:+: joinWith sep cs := by
  intro cs
  induction cs with
  | nil => intro x hx; exact absurd hx (List.not_mem_nil x)
  | cons c cs' ih =>
    intro x hx
    cases cs' with
    | nil =>
      have : x = c := by simpa using hx
      subst this
      exact List.infix_rfl
    | cons y t =>
      rcases List.mem_cons.mp hx with hx | hx
      · subst hx
        rw [joinWith_double]
        refine preInf ?_
        rw [List.append_assoc]
        exact List.prefix_append x _
      · rw [joinWith_double]
        exact (ih x hx).trans (sufInf (List.suffix_append _ _))

/-- Any match reported by `matchSaved` is nonempty, fits in the input, and
ends with a closing brace or Python whitespace (the trailing greedy star). -/
theorem matchSaved_spec (t : List Char) (n : Nat) (h : matchSaved t = some n) :
    0 < n ∧ n ≤ t.length ∧
    ∃ c, (t.take n).getLast? = some c ∧ (c = rbrace ∨ isPySpace c = true) := by
  simp only [matchSaved] at h
  split at h
  case isTrue hpre =>
    set rest := t.drop savedLit.length with hrest
    set k := (rest.takeWhile (fun c => c ≠ rbrace)).length with hkdef
    split at h
    case isTrue => simp at h
    case isFalse hk0 =>
      split at h
      case isTrue hhd1 =>
        set rest2 := rest.drop (k+1) with hrest2
        set w := (rest2.takeWhile (fun c => isPySpace c)).length with hwdef
        split at h
        case isTrue hhd2 =>
          set rest3 := rest2.drop (w+1) with hrest3
          set w2 := (rest3.takeWhile (fun c => isPySpace c)).length with hw2def
          have hn : n = savedLit.length + k + 1 + w + 1 + w2 := by
            have h2 := Option.some.inj h
            omega
          have hLpos : 0 < savedLit.length := by decide
          have f1 : savedLit <+: t := isPreIff.mp hpre
          have f2 : savedLit ++ rest = t := by
            rw [hrest]; exact List.prefix_iff_eq_append.mp f1
          obtain ⟨ys, hys⟩ := List.head?_eq_some_iff.mp hhd1
          have hys2 : ys = rest2 := by
            have h3 := congrArg List.tail hys
            rw [List.tail_drop] at h3
            simpa [hrest2] using h3.symm
          have hdk : rest.drop k = rbrace :: rest2 := by rw [hys, hys2]
          obtain ⟨zs, hzs⟩ := List.head?_eq_some_iff.mp hhd2
          have hzs2 : zs = rest3 := by
            have h3 := congrArg List.tail hzs
            rw [List.tail_drop] at h3
            simpa [hrest3] using h3.symm
          have hdw : rest2.drop w = rbrace :: rest3 := by rw [hzs, hzs2]
          have hklt : k < rest.length := by
            by_contra hge
            rw [List.drop_eq_nil_of_le (by omega)] at hdk
            exact List.cons_ne_nil _ _ hdk.symm
          have hwlt : w < rest2.length := by
            by_contra hge
            rw [List.drop_eq_nil_of_le (by omega)] at hdw
            exact List.cons_ne_nil _ _ hdw.symm
          set run1 := rest.take k with hrun1
          set ws1 := rest2.take w with hws1
          set tw := rest3.takeWhile (fun c => isPySpace c) with htw
          have f5 : rest = run1 ++ rbrace :: rest2 := by
            rw [hrun1, ← hdk]; exact (List.take_append_drop k rest).symm
          have f6 : rest2 = ws1 ++ rbrace :: rest3 := by
            rw [hws1, ← hdw]; exact (List.take_append_drop w rest2).symm
          have f7 : tw ++ rest3.drop w2 = rest3 := by
            rw [htw, hw2def, htw]
            exact List.prefix_iff_eq_append.mp (List.takeWhile_prefix _)
          have f8 : run1.length = k := by
            rw [hrun1, List.length_take]; omega
          have f9 : ws1.length = w := by
            rw [hws1, List.length_take]; omega
          have f10 : tw.length = w2 := hw2def.symm
          have f12 : t = (savedLit ++ run1 ++ rbrace :: ws1 ++ rbrace :: tw) ++
              rest3.drop w2 := by
            calc t = savedLit ++ rest := f2.symm
              _ = savedLit ++ (run1 ++ rbrace :: rest2) := by rw [← f5]
              _ = savedLit ++ (run1 ++ rbrace :: (ws1 ++ rbrace :: rest3)) := by rw [← f6]
              _ = savedLit ++ (run1 ++ rbrace :: (ws1 ++ rbrace :: (tw ++ rest3.drop w2))) := by
                  rw [f7]
              _ = (savedLit ++ run1 ++ rbrace :: ws1 ++ rbrace :: tw) ++ rest3.drop w2 := by
                  simp [List.append_assoc]
          have f11 : (savedLit ++ run1 ++ rbrace :: ws1 ++ rbrace :: tw).length = n := by
            simp only [List.length_append, List.length_cons, f8, f9, f10]
            omega
          have f13 : t.take n = savedLit ++ run1 ++ rbrace :: ws1 ++ rbrace :: tw := by
            conv_lhs => rw [f12]
            exact List.take_left' f11
          have hlenle : n ≤ t.length := by
            have h3 := congrArg List.length f12
            rw [List.length_append, f11] at h3
            omega
          have hPRE : (savedLit ++ run1 ++ rbrace :: ws1 ++ rbrace :: tw).getLast? =
              tw.getLast?.or (some rbrace) := by
            have hsh : savedLit ++ run1 ++ rbrace :: ws1 ++ rbrace :: tw =
                (savedLit ++ run1 ++ rbrace :: ws1) ++ ([rbrace] ++ tw) := by
              simp
            rw [hsh, List.getLast?_append, List.getLast?_append]
            cases hg : tw.getLast? with
            | none => rfl
            | some x => rfl
          refine ⟨by omega, hlenle, ?_⟩
          rw [f13, hPRE]
          cases hg : tw.getLast? with
          | none =>
            exact ⟨rbrace, rfl, Or.inl rfl⟩
          | some x =>
            refine ⟨x, rfl, Or.inr ?_⟩
            have hx : x ∈ tw := List.mem_of_getLast?_eq_some hg
            rw [htw] at hx
            exact List.mem_takeWhile_imp hx
        case isFalse => simp at h
      case isFalse => simp at h
  case isFalse => simp at h

/-- Decomposition of the count-1 `re.sub`: either no match exists and the
document is unchanged, or the insertion splits the document at the end of the
matched span, which ends in a closing brace or whitespace. -/
theorem subGo_decomp (m : List Char → Option Nat) (ins : List Char)
    (hspec : ∀ t n, m t = some n → 0 < n ∧ n ≤ t.length ∧
      ∃ c, (t.take n).getLast? = some c ∧ (c = rbrace ∨ isPySpace c = true)) :
    ∀ s, subGo m ins s = s ∨
      ∃ A B, s = A ++ B ∧ subGo m ins s = A ++ ins ++ B ∧ A ≠ [] ∧
        ∃ c, A.getLast? = some c ∧ (c = rbrace ∨ isPySpace c = true) := by
  intro s
  induction s with
  | nil => left; rfl
  | cons c cs ih =>
    cases hm : m (c :: cs) with
    | some n =>
      right
      obtain ⟨hn0, hnle, c0, hlast, hc0⟩ := hspec (c :: cs) n hm
      refine ⟨(c :: cs).take n, (c :: cs).drop n, (List.take_append_drop n _).symm,
        ?_, ?_, c0, hlast, hc0⟩
      · show subGo m ins (c :: cs) = _
        simp only [subGo, hm]
      · intro hnil
        have h2 := congrArg List.length hnil
        simp [List.length_take] at h2
        omega
    | none =>
      have hstep : subGo m ins (c :: cs) = c :: subGo m ins cs := by
        simp only [subGo, hm]
      rcases ih with hid | ⟨A, B, hAB, hout, hAne, c0, hlast, hc0⟩
      · left; rw [hstep, hid]
      · right
        refine ⟨c :: A, B, by rw [hAB]; rfl, ?_, List.cons_ne_nil c A, c0, ?_, hc0⟩
        · rw [hstep, hout]; rfl
        · have h2 : c :: A = [c] ++ A := rfl
          rw [h2, List.getLast?_append, hlast]
          rfl

theorem resubSaved_decomp (E : List Char) :
    resubSaved E = E ∨
    ∃ A B, E = A ++ B ∧ resubSaved E = A ++ savedBlock ++ B ∧ A ≠ [] ∧
      ∃ c, A.getLast? = some c ∧ (c = rbrace ∨ isPySpace c = true) :=
  subGo_decomp matchSaved savedBlock matchSaved_spec E

/-- A pattern made of characters that are neither a closing brace nor
whitespace survives the count-1 `re.sub` of edit-chat.py. -/
theorem resubSaved_preserves (q : List Char)
    (hqb : rbrace ∉ q) (hqs : ∀ c ∈ q, isPySpace c = false)
    (E : List Char) (h : containsSub q E = true) :
    containsSub q (resubSaved E) = true := by
  rcases resubSaved_decomp E with hid | ⟨A, B, hAB, hout, hAne, c0, hlast, hc0⟩
  · rw [hid]; exact h
  · rw [hout]
    have hinf : q <:+: A ++ B := by
      rw [← hAB]
      exact (containsSub_iff_inf _ _).mp h
    refine (containsSub_iff_inf _ _).mpr ?_
    rcases infix_append_cases hinf with h1 | h1 | ⟨u, v, hu, hv, huv, husuf, hvpre⟩
    · refine h1.trans (preInf ?_)
      rw [List.append_assoc]
      exact List.prefix_append A _
    · exact h1.trans (sufInf (List.suffix_append _ B))
    · exfalso
      have hul : u.getLast? = some c0 := by
        rw [← getLast?_of_suf husuf hu]
        exact hlast
      have hcu : c0 ∈ u := List.mem_of_getLast?_eq_some hul
      have hupre : u <+: q := by
        rw [huv]; exact List.prefix_append u v
      rcases hc0 with hcb | hcs
      · exact hqb (hcb ▸ hupre.subset hcu)
      · have h2 := hqs c0 (hupre.subset hcu)
        rw [hcs] at h2
        exact absurd h2 (by simp)

theorem stage1_fix (E : List Char) (h : containsSub m1Marker E = true) :
    editChatStage1 E = E := by
  simp [editChatStage1, h]

theorem stage2_fix (E : List Char) (h : containsSub m2Marker E = true) :
    editChatStage2 E = E := by
  simp [editChatStage2, h]

theorem stage1_open (E : List Char) (h : containsSub m1Marker E = false) :
    editChatStage1 E =
      joinWith (String.data "\n") (pyInsert 2 importLine (splitOnChar '\n' E)) := by
  simp [editChatStage1, h]

theorem stage2_open (E : List Char) (h : containsSub m2Marker E = false) :
    editChatStage2 E = replaceAll old_response new_response (resubSaved E) := by
  simp [editChatStage2, h]

set_option maxRecDepth 400000 in
/-- A pattern whose characters are not braces, whitespace or commas is kept
present by the second stage of edit-chat.py. -/
theorem stage2_preserves (q : List Char)
    (hqb : rbrace ∉ q) (hqs : ∀ c ∈ q, isPySpace c = false)
    (hqc : (',' : Char) ∉ q)
    (E : List Char) (h : containsSub q E = true) :
    containsSub q (editChatStage2 E) = true := by
  cases hg : containsSub m2Marker E with
  | true => rw [stage2_fix E hg]; exact h
  | false =>
    rw [stage2_open E hg]
    have h1 : containsSub q (resubSaved E) = true := resubSaved_preserves q hqb hqs E h
    rw [show new_response = old_response ++ respExt from by decide]
    exact (containsSub_iff_inf _ _).mpr
      (infPresExt old_response respExt (by decide) ',' (by decide)
        (resubSaved E).length (resubSaved E) q (le_refl _)
        ((containsSub_iff_inf _ _).mp h1) hqc)

set_option maxRecDepth 400000 in
/-- After the first stage of edit-chat.py the import marker is present. -/
theorem stage1_marks (D : List Char) :
    containsSub m1Marker (editChatStage1 D) = true := by
  cases hg : containsSub m1Marker D with
  | true => rw [stage1_fix D hg]; exact hg
  | false =>
    rw [stage1_open D hg]
    refine (containsSub_iff_inf _ _).mpr ?_
    refine List.IsInfix.trans (show m1Marker <:+: importLine from by decide) ?_
    exact mem_joinWith_inf (String.data "\n") _ importLine (by simp [pyInsert])

set_option maxRecDepth 400000 in
/-- Claim C2: the guarded transformation of edit-chat.py is idempotent — the
presence guards (`createTodosFromAIRecommendations` for the import and
`autoCreatedTodos` for the auto-todo block) prevent any second insertion, so
applying the script's content transformation twice equals applying it once. -/
theorem c2_guarded_idempotent (D : List Char) :
    editChat (editChat D) = editChat D := by
  have hm1E : containsSub m1Marker (editChatStage1 D) = true := stage1_marks D
  have hm1F : containsSub m1Marker (editChat D) = true := by
    unfold editChat
    exact stage2_preserves m1Marker (by decide) (by decide) (by decide) _ hm1E
  show editChatStage2 (editChatStage1 (editChat D)) = editChat D
  rw [stage1_fix (editChat D) hm1F]
  cases hg2 : containsSub m2Marker (editChatStage1 D) with
  | true =>
    have hFE : editChat D = editChatStage1 D := by
      unfold editChat; exact stage2_fix _ hg2
    rw [hFE]
    exact stage2_fix _ hg2
  | false =>
    have hF : editChat D =
        replaceAll old_response new_response (resubSaved (editChatStage1 D)) := by
      unfold editChat; exact stage2_open _ hg2
    rcases resubSaved_decomp (editChatStage1 D) with hid |
      ⟨A, B, hAB, hout, hAne, c0, hlast, hc0⟩
    · cases hold : containsSub old_response (editChatStage1 D) with
      | true =>
        have h1 : new_response <:+: editChat D := by
          rw [hF, hid]
          exact contains_r_of_contains old_response new_response (by decide)
            (editChatStage1 D).length _ (le_refl _) hold
        have hm2F : containsSub m2Marker (editChat D) = true :=
          (containsSub_iff_inf _ _).mpr
            ((show m2Marker <:+: new_response from by decide).trans h1)
        exact stage2_fix _ hm2F
      | false =>
        have hFE : editChat D = editChatStage1 D := by
          rw [hF, hid, noOcc_noop old_response new_response _ hold]
        rw [hFE, stage2_open _ hg2, hid,
          noOcc_noop old_response new_response _ hold]
    · have hm2rs : containsSub m2Marker (resubSaved (editChatStage1 D)) = true := by
        rw [hout]
        exact (containsSub_iff_inf _ _).mpr
          ((show m2Marker <:+: savedBlock from by decide).trans
            (List.infix_append A savedBlock B))
      have hm2F : containsSub m2Marker (editChat D) = true := by
        rw [hF, show new_response = old_response ++ respExt from by decide]
        exact (containsSub_iff_inf _ _).mpr
          (infPresExt old_response respExt (by decide) ',' (by decide)
            (resubSaved (editChatStage1 D)).length _ m2Marker (le_refl _)
            ((containsSub_iff_inf _ _).mp hm2rs) (by decide))
      exact stage2_fix _ hm2F
